import Mathlib

/-!
Verification of the Drax codec and framing engine.

This file gives a shallow embedding, in Lean 4, of the parts of the Drax
repository that the checked claims are about:

* the VarNum (VarInt / VarLong) codec of `src/transport/buffer.rs`
  (macro `declare_var_num_ext!`) and the synchronous variant in
  `drax_core/src/extension.rs` (macro `declare_variable_number!`);
* the `ReadLimiter` of `src/transport/buffer.rs`;
* the `Size` model and the homogeneous-sequence size computation of
  `src/transport/packet.rs` / `src/transport/packet/vec.rs`;
* the frame pipeline (`FrameEncoder` / `FrameDecoder`) of
  `drax_core/src/transport/frame.rs`;
* the NBT tag codec of `src/nbt.rs` (macro `define_tags!`), i.e. `Tag`,
  `size_tag`, `write_tag`, `load_tag` and `NbtAccounter`;
* the legacy NBT loader of `drax_core/src/nbt.rs` (`load_tag`,
  `NbtAccounter::account_bits`).

Machine integers are modelled as `Nat` (unsigned bit patterns) or `Int`
(signed values) with explicit `% 2^w` reductions where the Rust code relies
on wrapping/overflowing behaviour.  Byte streams are `List Nat` (each
element a byte value), read cursors are modelled by returning the
unconsumed suffix next to each parse result, and fallible code returns
`Except`.
-/

namespace Drax

/-! ## Machine-integer conversions

`v as u32` on an `i32` reinterprets the two's-complement bit pattern,
which for a mathematical integer is reduction modulo `2^32`; the inverse
direction maps bit patterns `≥ 2^31` back to negative values.  Same for
the other widths used by the code (`u64`/`i64`, `usize`/`isize`). -/

/-- Bit pattern (as a natural number) of a signed `w`-bit integer. -/
def unsigned_of_signed (w : Nat) (v : Int) : Nat := (v % (2 ^ w : Nat)).toNat

/-- Signed value of a `w`-bit pattern (two's complement). -/
def signed_of_unsigned (w : Nat) (n : Nat) : Int :=
  if n < 2 ^ (w - 1) then (n : Int) else (n : Int) - (2 ^ w : Nat)

/-- `v as u32` for `v : i32`. -/
def u32_of_i32 (v : Int) : Nat := unsigned_of_signed 32 v

/-- Reinterpret a `u32` bit pattern as an `i32`. -/
def i32_of_u32 (n : Nat) : Int := signed_of_unsigned 32 n

/-- `v as u64` for `v : i64`. -/
def u64_of_i64 (v : Int) : Nat := unsigned_of_signed 64 v

/-- Reinterpret a `u64` bit pattern as an `i64`. -/
def i64_of_u64 (n : Nat) : Int := signed_of_unsigned 64 n

/-- `t as usize` for `t : isize` (64-bit platform): two's complement. -/
def usize_of_isize (t : Int) : Nat := unsigned_of_signed 64 t

/-- `n as i32` for `n : usize` (64-bit platform): truncate then sign. -/
def i32_of_usize (n : Nat) : Int := signed_of_unsigned 32 (n % 2 ^ 32)

/-- `v as u64` for `v : i32` (sign-extends, then reinterprets). -/
def u64_of_i32 (v : Int) : Nat := unsigned_of_signed 64 v

theorem signed_unsigned_inv_i32 (v : Int) (h0 : -(2 ^ 31) ≤ v) (h1 : v < 2 ^ 31) :
    i32_of_u32 (u32_of_i32 v) = v := by
  unfold i32_of_u32 u32_of_i32 signed_of_unsigned unsigned_of_signed
  omega

theorem signed_unsigned_inv_i64 (v : Int) (h0 : -(2 ^ 63) ≤ v) (h1 : v < 2 ^ 63) :
    i64_of_u64 (u64_of_i64 v) = v := by
  unfold i64_of_u64 u64_of_i64 signed_of_unsigned unsigned_of_signed
  omega

/-! ## VarNum codec (`src/transport/buffer.rs`, macro `declare_var_num_ext!`)

The macro is instantiated twice: at `(i32, u32, 35, 0xFFFFFF80u32)` and at
`(i64, u64, 70, 0xFFFFFFFFFFFFFF80u64)`.  We embed the macro body once,
parameterised by the unsigned width `w` (the continuation mask
`0xFFFFFF80u32` is `2^32 - 2^7` and `0xFFFFFFFFFFFFFF80u64` is
`2^64 - 2^7`) and by the bit-offset limit. -/

/-- The `$and_check` mask of `declare_var_num_ext!`: all bits of the
`w`-bit word except the low seven. -/
def var_num_mask (w : Nat) : Nat := 2 ^ w - 2 ^ 7

theorem shiftRight7_lt {value : Nat} (h : value ≠ 0) : value >>> 7 < value := by
  rw [Nat.shiftRight_eq_div_pow]
  exact Nat.div_lt_self (Nat.pos_of_ne_zero h) (by norm_num)

/-- The writer loop of `$write_struct::poll`: emit the low seven bits with
the continuation bit while the masked remainder is nonzero, then emit the
final byte (`value as u8`). -/
def write_var_num_loop (w : Nat) (value : Nat) : List Nat :=
  if h : value &&& var_num_mask w = 0 then
    [value % 2 ^ 8]
  else
    ((value &&& 0x7F) ||| 0x80) :: write_var_num_loop w (value >>> 7)
termination_by value
decreasing_by
  exact shiftRight7_lt (fun hv => h (by simp [hv]))

/-- The loop of `$size_fn`: count bytes exactly as the writer would emit
them. -/
def size_var_num_loop (w : Nat) (temp size : Nat) : Nat :=
  if h : temp &&& var_num_mask w = 0 then
    size + 1
  else
    size_var_num_loop w (temp >>> 7) (size + 1)
termination_by temp
decreasing_by
  exact shiftRight7_lt (fun hv => h (by simp [hv]))

/-- Failure modes of the VarNum reader: the bit offset reached the limit
("VarInt too large"), or the source produced no byte (`ErrorType::EOF`,
kept distinct from generic errors). -/
inductive VarNumError where
  | tooLarge
  | eof
deriving DecidableEq, Repr

/-- The reader loop of `$read_struct::poll`: before each byte, fail if the
bit offset reached `bitLimit`; otherwise read one byte (EOF when the
source is exhausted), OR its low seven bits shifted by the current offset
into the accumulator (an overflowing shift on the `w`-bit value, hence the
`% 2 ^ w`; the offset itself is always `< w` here since it grows in steps
of 7 from 0 and `w < bitLimit ≤ w + 7` at both instantiations), and stop
once the continuation bit is clear. -/
def read_var_num_loop (w bitLimit : Nat) :
    List Nat → Nat → Nat → Except VarNumError (Nat × List Nat)
  | bytes, value, bitOffset =>
    if bitOffset ≥ bitLimit then
      .error .tooLarge
    else
      match bytes with
      | [] => .error .eof
      | byte :: rest =>
        let value := value ||| ((byte &&& 0x7F) <<< bitOffset % 2 ^ w)
        if byte &&& 0x80 = 0 then
          .ok (value, rest)
        else
          read_var_num_loop w bitLimit rest value (bitOffset + 7)

/-- `size_var_int` (instantiation of `$size_fn` at `i32`/`u32`). -/
def size_var_int (var_num : Int) : Nat := size_var_num_loop 32 (u32_of_i32 var_num) 0

/-- `size_var_long` (instantiation of `$size_fn` at `i64`/`u64`). -/
def size_var_long (var_num : Int) : Nat := size_var_num_loop 64 (u64_of_i64 var_num) 0

/-- `write_var_int`: bytes produced by awaiting `WriteVarInt`. -/
def write_var_int (value : Int) : List Nat := write_var_num_loop 32 (u32_of_i32 value)

/-- `write_var_long`: bytes produced by awaiting `WriteVarLong`. -/
def write_var_long (value : Int) : List Nat := write_var_num_loop 64 (u64_of_i64 value)

/-- `read_var_int`: awaiting `ReadVarInt` on a byte source; returns the
decoded `i32` and the unconsumed suffix. -/
def read_var_int (bytes : List Nat) : Except VarNumError (Int × List Nat) :=
  match read_var_num_loop 32 35 bytes 0 0 with
  | .ok (v, rest) => .ok (i32_of_u32 v, rest)
  | .error e => .error e

/-- `read_var_long`: awaiting `ReadVarLong` on a byte source. -/
def read_var_long (bytes : List Nat) : Except VarNumError (Int × List Nat) :=
  match read_var_num_loop 64 70 bytes 0 0 with
  | .ok (v, rest) => .ok (i64_of_u64 v, rest)
  | .error e => .error e

/-! ### Bit-level helper lemmas for the VarNum proofs -/

theorem land_two_pow_eq_zero {n k : Nat} (h : n < 2 ^ k) : n &&& 2 ^ k = 0 := by
  apply Nat.eq_of_testBit_eq
  intro i
  simp only [Nat.testBit_land, Nat.testBit_two_pow, Nat.zero_testBit]
  by_cases hki : k = i
  · subst hki
    simp [Nat.testBit_lt_two_pow h]
  · simp [hki]

theorem var_num_mask_eq_shift {w : Nat} (hw : 7 ≤ w) :
    var_num_mask w = (2 ^ (w - 7) - 1) <<< 7 := by
  unfold var_num_mask
  rw [Nat.shiftLeft_eq, Nat.sub_mul, one_mul, ← Nat.pow_add, Nat.sub_add_cancel hw]

theorem testBit_var_num_mask {w : Nat} (hw : 7 ≤ w) (i : Nat) :
    (var_num_mask w).testBit i = (decide (7 ≤ i) && decide (i < w)) := by
  rw [var_num_mask_eq_shift hw]
  simp only [Nat.testBit_shiftLeft, Nat.testBit_two_pow_sub_one]
  by_cases h7 : 7 ≤ i
  · simp only [decide_eq_true h7, Bool.true_and]
    exact decide_eq_decide.mpr (by omega)
  · simp [h7]

theorem land_var_num_mask_eq_zero_iff {w n : Nat} (hw : 7 ≤ w) (hn : n < 2 ^ w) :
    n &&& var_num_mask w = 0 ↔ n < 2 ^ 7 := by
  constructor
  · intro h
    by_contra hlt
    push_neg at hlt
    obtain ⟨i, hi7, hbit⟩ := Nat.ge_two_pow_implies_high_bit_true hlt
    have hiw : i < w := by
      by_contra hiw
      push_neg at hiw
      have : n < 2 ^ i := lt_of_lt_of_le hn (Nat.pow_le_pow_right (by norm_num) hiw)
      simp [Nat.testBit_lt_two_pow this] at hbit
    have hz := congrArg (Nat.testBit · i) h
    simp [Nat.testBit_land, hbit, testBit_var_num_mask hw, hi7, hiw] at hz
  · intro h
    apply Nat.eq_of_testBit_eq
    intro i
    simp only [Nat.testBit_land, Nat.zero_testBit, testBit_var_num_mask hw]
    by_cases h7 : 7 ≤ i
    · have : n < 2 ^ i := lt_of_lt_of_le h (Nat.pow_le_pow_right (by norm_num) h7)
      simp [Nat.testBit_lt_two_pow this]
    · simp [h7]

theorem lor_shiftLeft_distrib (x y k : Nat) : (x ||| y) <<< k = (x <<< k) ||| (y <<< k) := by
  apply Nat.eq_of_testBit_eq
  intro i
  simp only [Nat.testBit_shiftLeft, Nat.testBit_lor]
  by_cases h : k ≤ i <;> simp [h]

theorem lor_mod_two_pow (x y w : Nat) : (x ||| y) % 2 ^ w = x % 2 ^ w ||| y % 2 ^ w := by
  apply Nat.eq_of_testBit_eq
  intro i
  simp only [Nat.testBit_mod_two_pow, Nat.testBit_lor]
  by_cases h : i < w <;> simp [h]

/-- Disjoint OR is addition: ORing bits at or above position `k` into an
accumulator strictly below `2 ^ k` is the same as adding them. -/
theorem lor_shiftLeft_eq_add {a : Nat} (b k : Nat) (h : a < 2 ^ k) :
    a ||| b <<< k = a + b <<< k := by
  rw [Nat.shiftLeft_eq, Nat.lor_comm, Nat.mul_comm b (2 ^ k), ← Nat.mul_add_lt_is_or h b,
    Nat.add_comm]

/-! ### VarNum round-trip and size agreement -/

theorem size_var_num_loop_eq (w : Nat) :
    ∀ n s, size_var_num_loop w n s = s + (write_var_num_loop w n).length := by
  intro n
  induction n using Nat.strong_induction_on with
  | _ n ih =>
    intro s
    rw [size_var_num_loop, write_var_num_loop]
    by_cases hguard : n &&& var_num_mask w = 0
    · simp [hguard]
    · have hn0 : n ≠ 0 := fun hv => hguard (by simp [hv])
      simp only [hguard, dite_false, List.length_cons]
      rw [ih _ (shiftRight7_lt hn0)]
      omega

/-- Reading back what the writer loop emitted: starting at bit offset
`off` with an accumulator confined to the low `off` bits, the reader
consumes exactly the written bytes and adds `n * 2 ^ off` to the
accumulator, leaving any following bytes untouched. -/
theorem read_write_var_num_loop (w bitLimit : Nat) (hw : 7 ≤ w) (hwl : w < bitLimit) :
    ∀ n acc off ex, n * 2 ^ off < 2 ^ w → off < bitLimit → acc < 2 ^ off →
      read_var_num_loop w bitLimit (write_var_num_loop w n ++ ex) acc off =
        .ok (acc + n * 2 ^ off, ex) := by
  intro n
  induction n using Nat.strong_induction_on with
  | _ n ih =>
    intro acc off ex hbound hoff hacc
    have hn2w : n < 2 ^ w :=
      lt_of_le_of_lt (Nat.le_mul_of_pos_right n (Nat.two_pow_pos off)) hbound
    rw [write_var_num_loop]
    by_cases hguard : n &&& var_num_mask w = 0
    · -- final byte: the masked remainder is zero, i.e. `n < 2 ^ 7`
      have hn128 : n < 2 ^ 7 := (land_var_num_mask_eq_zero_iff hw hn2w).mp hguard
      have hbyte : n % 2 ^ 8 = n := Nat.mod_eq_of_lt (by omega)
      rw [dif_pos hguard]
      rw [read_var_num_loop.eq_def]
      simp only [List.cons_append, List.nil_append, ge_iff_le, Nat.not_le.mpr hoff, if_false]
      rw [hbyte]
      have h7f : n &&& 0x7F = n := by
        have h127 : (0x7F : Nat) = 2 ^ 7 - 1 := by norm_num
        rw [h127, Nat.and_pow_two_sub_one_of_lt_two_pow hn128]
      have h80 : n &&& 0x80 = 0 := by
        have h : n &&& 2 ^ 7 = 0 := land_two_pow_eq_zero hn128
        norm_num at h
        exact h
      rw [if_pos h80, h7f]
      have hshift : n <<< off % 2 ^ w = n * 2 ^ off := by
        rw [Nat.shiftLeft_eq]
        exact Nat.mod_eq_of_lt hbound
      rw [hshift, ← Nat.shiftLeft_eq n off, lor_shiftLeft_eq_add n off hacc,
        Nat.shiftLeft_eq n off]
    · -- continuation byte
      have hn0 : n ≠ 0 := fun hv => hguard (by simp [hv])
      have hge : 2 ^ 7 ≤ n := by
        by_contra hlt
        push_neg at hlt
        exact hguard ((land_var_num_mask_eq_zero_iff hw hn2w).mpr hlt)
      have h127 : (0x7F : Nat) = 2 ^ 7 - 1 := by norm_num
      have hm : n &&& 0x7F = n % 2 ^ 7 := by rw [h127, Nat.and_pow_two_sub_one_eq_mod]
      have hmlt : n % 2 ^ 7 < 2 ^ 7 := Nat.mod_lt _ (by norm_num)
      -- the emitted byte keeps its low seven bits and has the continuation bit set
      have hbyte7f : ((n &&& 0x7F) ||| 0x80) &&& 0x7F = n % 2 ^ 7 := by
        rw [Nat.and_distrib_right, hm]
        have h1 : n % 2 ^ 7 &&& 0x7F = n % 2 ^ 7 := by
          rw [h127, Nat.and_pow_two_sub_one_of_lt_two_pow hmlt]
        have h2 : (0x80 : Nat) &&& 0x7F = 0 := by decide
        rw [h1, h2, Nat.or_zero]
      have hbyte80 : ((n &&& 0x7F) ||| 0x80) &&& 0x80 = 2 ^ 7 := by
        rw [Nat.and_distrib_right, hm]
        have h1 : n % 2 ^ 7 &&& 0x80 = 0 := by
          have : (0x80 : Nat) = 2 ^ 7 := by norm_num
          rw [this]
          exact land_two_pow_eq_zero hmlt
        have h2 : (0x80 : Nat) &&& 0x80 = 2 ^ 7 := by decide
        rw [h1, h2, Nat.zero_or]
      -- power bookkeeping
      have hpow : 2 ^ (off + 7) ≤ 2 ^ w := by
        calc 2 ^ (off + 7) = 2 ^ 7 * 2 ^ off := by rw [Nat.pow_add]; ring
        _ ≤ n * 2 ^ off := Nat.mul_le_mul_right _ hge
        _ ≤ 2 ^ w := le_of_lt hbound
      have hoffw : off + 7 < bitLimit := by
        have : off + 7 ≤ w := (Nat.pow_le_pow_iff_right (by norm_num)).mp hpow
        omega
      have hshift : (n % 2 ^ 7) <<< off % 2 ^ w = n % 2 ^ 7 * 2 ^ off := by
        rw [Nat.shiftLeft_eq]
        apply Nat.mod_eq_of_lt
        calc n % 2 ^ 7 * 2 ^ off < 2 ^ 7 * 2 ^ off := by
              exact (Nat.mul_lt_mul_right (Nat.two_pow_pos off)).mpr hmlt
        _ = 2 ^ (off + 7) := by rw [Nat.pow_add]; ring
        _ ≤ 2 ^ w := hpow
      have hacc' : acc + n % 2 ^ 7 * 2 ^ off < 2 ^ (off + 7) := by
        have hb : n % 2 ^ 7 ≤ 2 ^ 7 - 1 := by omega
        calc acc + n % 2 ^ 7 * 2 ^ off
            < 2 ^ off + (2 ^ 7 - 1) * 2 ^ off :=
              add_lt_add_of_lt_of_le hacc (Nat.mul_le_mul_right (2 ^ off) hb)
        _ = (1 + (2 ^ 7 - 1)) * 2 ^ off := by ring
        _ = 2 ^ 7 * 2 ^ off := by norm_num
        _ = 2 ^ (off + 7) := by rw [Nat.pow_add]; ring
      -- one reader step consumes the continuation byte
      rw [dif_neg hguard]
      rw [read_var_num_loop.eq_def]
      simp only [List.cons_append, ge_iff_le, Nat.not_le.mpr hoff, if_false, hbyte7f, hbyte80]
      have hne : (2 ^ 7 : Nat) ≠ 0 := by norm_num
      simp only [hne, if_false, hshift]
      rw [← Nat.shiftLeft_eq (n % 2 ^ 7) off, lor_shiftLeft_eq_add _ off hacc,
        Nat.shiftLeft_eq (n % 2 ^ 7) off]
      -- recurse on the shifted remainder
      have hrec := ih (n >>> 7) (shiftRight7_lt hn0) (acc + n % 2 ^ 7 * 2 ^ off) (off + 7) ex
        (by
          rw [Nat.shiftRight_eq_div_pow]
          calc n / 2 ^ 7 * 2 ^ (off + 7) = n / 2 ^ 7 * 2 ^ 7 * 2 ^ off := by
                rw [Nat.pow_add]; ring
          _ ≤ n * 2 ^ off := Nat.mul_le_mul_right _ (Nat.div_mul_le_self n (2 ^ 7))
          _ < 2 ^ w := hbound)
        hoffw hacc'
      rw [hrec]
      have hkey : acc + n % 2 ^ 7 * 2 ^ off + n >>> 7 * 2 ^ (off + 7) = acc + n * 2 ^ off := by
        rw [Nat.shiftRight_eq_div_pow]
        have h1 : n % 2 ^ 7 * 2 ^ off + n / 2 ^ 7 * 2 ^ (off + 7) =
            (n % 2 ^ 7 + 2 ^ 7 * (n / 2 ^ 7)) * 2 ^ off := by
          rw [Nat.pow_add]; ring
        rw [Nat.add_assoc, h1, Nat.mod_add_div]
      rw [hkey]

/-- A prefix of continuation bytes long enough to push the bit offset to
the limit makes the reader fail with the too-large error, regardless of
what follows the prefix (the failing check precedes the next read). -/
theorem read_var_num_loop_cont_tooLarge {w bitLimit : Nat} :
    ∀ (pre rest : List Nat) (acc off : Nat), (∀ b ∈ pre, b &&& 0x80 ≠ 0) →
      bitLimit ≤ off + 7 * pre.length →
      read_var_num_loop w bitLimit (pre ++ rest) acc off = .error .tooLarge := by
  intro pre
  induction pre with
  | nil =>
    intro rest acc off _ hlim
    rw [read_var_num_loop.eq_def]
    simp only [List.length_nil, Nat.mul_zero, Nat.add_zero] at hlim
    simp [hlim]
  | cons b pre ih =>
    intro rest acc off hcont hlim
    rw [read_var_num_loop.eq_def]
    by_cases hoff : off ≥ bitLimit
    · simp [hoff]
    · have hb : b &&& 0x80 ≠ 0 := hcont b (List.mem_cons_self b pre)
      simp only [List.cons_append, ge_iff_le, hoff, if_false, hb, ite_false]
      exact ih rest _ (off + 7) (fun x hx => hcont x (List.mem_cons_of_mem b hx))
        (by simp only [List.length_cons] at hlim ⊢; omega)

/-- A source consisting only of continuation bytes, too short to reach the
bit-offset limit, exhausts the reader into the EOF error. -/
theorem read_var_num_loop_cont_eof {w bitLimit : Nat} :
    ∀ (bs : List Nat) (acc off : Nat), (∀ b ∈ bs, b &&& 0x80 ≠ 0) →
      off + 7 * bs.length < bitLimit →
      read_var_num_loop w bitLimit bs acc off = .error .eof := by
  intro bs
  induction bs with
  | nil =>
    intro acc off _ hlim
    rw [read_var_num_loop.eq_def]
    simp only [List.length_nil, Nat.mul_zero, Nat.add_zero] at hlim
    simp [Nat.not_le.mpr hlim]
  | cons b bs ih =>
    intro acc off hcont hlim
    have hoff : off < bitLimit := by
      simp only [List.length_cons] at hlim
      omega
    rw [read_var_num_loop.eq_def]
    have hb : b &&& 0x80 ≠ 0 := hcont b (List.mem_cons_self b bs)
    simp only [ge_iff_le, Nat.not_le.mpr hoff, if_false, hb, ite_false]
    exact ih _ (off + 7) (fun x hx => hcont x (List.mem_cons_of_mem b hx))
      (by simp only [List.length_cons] at hlim ⊢; omega)

/-- The value an accepted (possibly non-minimal) encoding decodes to: the
7-bit groups of the bytes, concatenated little-endian. -/
def var_num_groups : List Nat → Nat
  | [] => 0
  | b :: rest => (b &&& 0x7F) + 2 ^ 7 * var_num_groups rest

/-- Any sequence of continuation bytes short of the bit-offset limit,
followed by one byte with a clear continuation bit, is accepted, and
decodes to the little-endian concatenation of the 7-bit groups (truncated
to the `w`-bit accumulator), leaving the remaining bytes unread. -/
theorem read_var_num_loop_groups {w bitLimit : Nat} :
    ∀ (pre : List Nat) (b : Nat) (rest : List Nat) (acc off : Nat),
      (∀ x ∈ pre, x &&& 0x80 ≠ 0) → b &&& 0x80 = 0 →
      off + 7 * pre.length < bitLimit →
      read_var_num_loop w bitLimit (pre ++ b :: rest) acc off =
        .ok (acc ||| var_num_groups (pre ++ [b]) <<< off % 2 ^ w, rest) := by
  intro pre
  induction pre with
  | nil =>
    intro b rest acc off _ hb hlim
    simp only [List.length_nil, Nat.mul_zero, Nat.add_zero] at hlim
    rw [read_var_num_loop.eq_def]
    simp only [List.nil_append, ge_iff_le, Nat.not_le.mpr hlim, if_false, hb, ite_true]
    simp [var_num_groups]
  | cons c pre ih =>
    intro b rest acc off hcont hb hlim
    have hoff : off < bitLimit := by
      simp only [List.length_cons] at hlim
      omega
    have hc : c &&& 0x80 ≠ 0 := hcont c (List.mem_cons_self c pre)
    rw [read_var_num_loop.eq_def]
    simp only [List.cons_append, ge_iff_le, Nat.not_le.mpr hoff, if_false, hc, ite_false]
    rw [ih b rest _ (off + 7) (fun x hx => hcont x (List.mem_cons_of_mem c hx)) hb
      (by simp only [List.length_cons] at hlim ⊢; omega)]
    -- recombine the first group with the rest of the groups
    have hm : c &&& 0x7F = c % 2 ^ 7 := by
      have h127 : (0x7F : Nat) = 2 ^ 7 - 1 := by norm_num
      rw [h127, Nat.and_pow_two_sub_one_eq_mod]
    have hmlt : c &&& 0x7F < 2 ^ 7 := by
      rw [hm]
      exact Nat.mod_lt _ (by norm_num)
    have hsplit : var_num_groups (c :: (pre ++ [b])) <<< off =
        (c &&& 0x7F) <<< off ||| var_num_groups (pre ++ [b]) <<< (off + 7) := by
      have h1 : var_num_groups (c :: (pre ++ [b])) =
          (c &&& 0x7F) ||| var_num_groups (pre ++ [b]) <<< 7 := by
        show (c &&& 0x7F) + 2 ^ 7 * var_num_groups (pre ++ [b]) = _
        rw [Nat.shiftLeft_eq, Nat.mul_comm (var_num_groups (pre ++ [b])) (2 ^ 7),
          Nat.add_comm, Nat.mul_add_lt_is_or hmlt, Nat.lor_comm]
      rw [h1, lor_shiftLeft_distrib]
      have h2 : var_num_groups (pre ++ [b]) <<< 7 <<< off =
          var_num_groups (pre ++ [b]) <<< (off + 7) := by
        rw [← Nat.shiftLeft_add, Nat.add_comm 7 off]
      rw [h2]
    rw [hsplit, lor_mod_two_pow, ← Nat.lor_assoc]

/-! ### Claim theorems about the VarNum codec -/

/-- C2: for every 32-bit signed integer `v`, writing `v` with
`write_var_int` and reading the produced bytes back with `read_var_int`
yields `v` again (consuming exactly the written bytes), and
`size_var_int v` equals the number of bytes written; the same round-trip
and size agreement holds for 64-bit integers via `write_var_long` /
`read_var_long` / `size_var_long`. -/
theorem claim_c2_var_num_round_trip :
    (∀ v : Int, -(2 ^ 31) ≤ v → v < 2 ^ 31 → ∀ ex,
        read_var_int (write_var_int v ++ ex) = .ok (v, ex) ∧
        size_var_int v = (write_var_int v).length) ∧
    (∀ v : Int, -(2 ^ 63) ≤ v → v < 2 ^ 63 → ∀ ex,
        read_var_long (write_var_long v ++ ex) = .ok (v, ex) ∧
        size_var_long v = (write_var_long v).length) := by
  constructor
  · intro v h0 h1 ex
    have hn : u32_of_i32 v < 2 ^ 32 := by
      unfold u32_of_i32 unsigned_of_signed
      omega
    have hrt := read_write_var_num_loop 32 35 (by norm_num) (by norm_num)
      (u32_of_i32 v) 0 0 ex (by simpa using hn) (by norm_num) (by norm_num)
    constructor
    · unfold read_var_int write_var_int
      rw [hrt]
      simp [signed_unsigned_inv_i32 v h0 h1]
    · unfold size_var_int write_var_int
      rw [size_var_num_loop_eq]
      exact Nat.zero_add _
  · intro v h0 h1 ex
    have hn : u64_of_i64 v < 2 ^ 64 := by
      unfold u64_of_i64 unsigned_of_signed
      omega
    have hrt := read_write_var_num_loop 64 70 (by norm_num) (by norm_num)
      (u64_of_i64 v) 0 0 ex (by simpa using hn) (by norm_num) (by norm_num)
    constructor
    · unfold read_var_long write_var_long
      rw [hrt]
      simp [signed_unsigned_inv_i64 v h0 h1]
    · unfold size_var_long write_var_long
      rw [size_var_num_loop_eq]
      exact Nat.zero_add _

theorem claim_c2_var_num_round_trip_witness :
    (-(2 ^ 31) ≤ (-8877777 : Int) ∧ (-8877777 : Int) < 2 ^ 31) ∧
    (read_var_int (write_var_int (-8877777) ++ [9]) = .ok (-8877777, [9]) ∧
      size_var_int (-8877777) = (write_var_int (-8877777)).length) :=
  ⟨⟨by norm_num, by norm_num⟩,
    claim_c2_var_num_round_trip.1 (-8877777) (by norm_num) (by norm_num) [9]⟩

/-- C8: a 32-bit VarNum read fails with the too-large error as soon as the
bit offset reaches 35, i.e. after five continuation bytes, without reading
any further byte (the bytes after the fifth are arbitrary and untouched);
the 64-bit reader caps at offset 70, i.e. ten bytes; and a source that
runs out of bytes mid-value fails with the distinct EOF error kind. -/
theorem claim_c8_var_num_limits :
    (∀ pre rest : List Nat, pre.length = 5 → (∀ b ∈ pre, b &&& 0x80 ≠ 0) →
        read_var_int (pre ++ rest) = .error .tooLarge) ∧
    (∀ bs : List Nat, bs.length ≤ 4 → (∀ b ∈ bs, b &&& 0x80 ≠ 0) →
        read_var_int bs = .error .eof) ∧
    (∀ pre rest : List Nat, pre.length = 10 → (∀ b ∈ pre, b &&& 0x80 ≠ 0) →
        read_var_long (pre ++ rest) = .error .tooLarge) ∧
    (∀ bs : List Nat, bs.length ≤ 9 → (∀ b ∈ bs, b &&& 0x80 ≠ 0) →
        read_var_long bs = .error .eof) := by
  refine ⟨?_, ?_, ?_, ?_⟩
  · intro pre rest hlen hcont
    unfold read_var_int
    rw [read_var_num_loop_cont_tooLarge pre rest 0 0 hcont (by omega)]
  · intro bs hlen hcont
    unfold read_var_int
    rw [read_var_num_loop_cont_eof bs 0 0 hcont (by omega)]
  · intro pre rest hlen hcont
    unfold read_var_long
    rw [read_var_num_loop_cont_tooLarge pre rest 0 0 hcont (by omega)]
  · intro bs hlen hcont
    unfold read_var_long
    rw [read_var_num_loop_cont_eof bs 0 0 hcont (by omega)]

theorem claim_c8_var_num_limits_witness :
    (([0x80, 0x81, 0xFF, 0x80, 0x80] : List Nat).length = 5 ∧
      (∀ b ∈ ([0x80, 0x81, 0xFF, 0x80, 0x80] : List Nat), b &&& 0x80 ≠ 0)) ∧
    read_var_int ([0x80, 0x81, 0xFF, 0x80, 0x80] ++ [0x01]) = .error .tooLarge :=
  ⟨⟨by decide, by decide⟩,
    claim_c8_var_num_limits.1 [0x80, 0x81, 0xFF, 0x80, 0x80] [0x01] (by decide) (by decide)⟩

/-- C10 (implicit): the reader accepts non-minimal encodings.  Any
sequence of at most four (respectively nine) continuation bytes followed
by a byte with a clear continuation bit decodes successfully to the
little-endian concatenation of the 7-bit groups (reduced to the 32-bit
respectively 64-bit accumulator width), so a padded encoding such as
`[0x80, 0x00]` decodes to the same value 0 as the minimal `[0x00]`. -/
theorem claim_c10_non_minimal_encodings :
    (∀ (pre : List Nat) (b : Nat) (rest : List Nat),
        pre.length ≤ 4 → (∀ x ∈ pre, x &&& 0x80 ≠ 0) → b &&& 0x80 = 0 →
        read_var_int (pre ++ b :: rest) =
          .ok (i32_of_u32 (var_num_groups (pre ++ [b]) % 2 ^ 32), rest)) ∧
    (∀ (pre : List Nat) (b : Nat) (rest : List Nat),
        pre.length ≤ 9 → (∀ x ∈ pre, x &&& 0x80 ≠ 0) → b &&& 0x80 = 0 →
        read_var_long (pre ++ b :: rest) =
          .ok (i64_of_u64 (var_num_groups (pre ++ [b]) % 2 ^ 64), rest)) ∧
    (read_var_int [0x80, 0x00] = .ok (0, []) ∧ read_var_int [0x00] = .ok (0, [])) := by
  refine ⟨?_, ?_, rfl, rfl⟩
  · intro pre b rest hlen hcont hb
    unfold read_var_int
    rw [read_var_num_loop_groups pre b rest 0 0 hcont hb (by omega)]
    simp
  · intro pre b rest hlen hcont hb
    unfold read_var_long
    rw [read_var_num_loop_groups pre b rest 0 0 hcont hb (by omega)]
    simp

theorem claim_c10_non_minimal_encodings_witness :
    (([0x80] : List Nat).length ≤ 4 ∧ (∀ x ∈ ([0x80] : List Nat), x &&& 0x80 ≠ 0) ∧
      (0x00 : Nat) &&& 0x80 = 0) ∧
    read_var_int ([0x80] ++ 0x00 :: []) =
      .ok (i32_of_u32 (var_num_groups ([0x80] ++ [0x00]) % 2 ^ 32), []) :=
  ⟨⟨by decide, by decide, by decide⟩,
    claim_c10_non_minimal_encodings.1 [0x80] 0x00 [] (by decide) (by decide) (by decide)⟩

/-! ## `ReadLimiter` (`src/transport/buffer.rs`)

The wrapper tracks the limit and the bytes consumed so far.  A call to
`poll_read` with an output buffer that still has `remaining` bytes of
capacity is modelled against an underlying in-memory reader (a byte list,
which fills as many of the requested bytes as it has, like `Cursor`); the
result carries the delivered bytes together with the updated limiter state
and the updated underlying source.  On rejection the limiter state and the
source are returned unchanged — nothing was consumed. -/

structure ReadLimiter where
  limit : Nat
  current : Nat
deriving DecidableEq, Repr

/-- The error produced by `ReadLimiter::poll_read` ("Read limit exceeded"). -/
inductive ReadLimitError where
  | readLimitExceeded
deriving DecidableEq, Repr

/-- `ReadLimiter::poll_read`: reject before reading when the bytes already
consumed plus the requested capacity exceed the limit; otherwise forward
the read and add the actually-filled byte count to `current`. -/
def ReadLimiter.poll_read (st : ReadLimiter) (source : List Nat) (remaining : Nat) :
    Except ReadLimitError (List Nat) × ReadLimiter × List Nat :=
  if st.current + remaining > st.limit then
    (.error .readLimitExceeded, st, source)
  else
    let filled := source.take remaining
    (.ok filled, ⟨st.limit, st.current + filled.length⟩, source.drop remaining)

/-- Issue a sequence of read requests through one `ReadLimiter`,
concatenating all bytes it ever delivers. -/
def read_limiter_run (st : ReadLimiter) (source : List Nat) : List Nat → List Nat
  | [] => []
  | n :: ns =>
    match ReadLimiter.poll_read st source n with
    | (.ok filled, st', src') => filled ++ read_limiter_run st' src' ns
    | (.error _, st', src') => read_limiter_run st' src' ns

theorem read_limiter_run_le (reqs : List Nat) :
    ∀ (st : ReadLimiter) (source : List Nat), st.current ≤ st.limit →
      st.current + (read_limiter_run st source reqs).length ≤ st.limit := by
  induction reqs with
  | nil =>
    intro st source h
    simpa [read_limiter_run] using h
  | cons n ns ih =>
    intro st source h
    rw [read_limiter_run]
    unfold ReadLimiter.poll_read
    by_cases hg : st.current + n > st.limit
    · simp only [hg, if_true]
      exact ih st source h
    · push_neg at hg
      simp only [gt_iff_lt, Nat.not_lt.mpr hg, if_false, List.length_append]
      have hfill : (source.take n).length ≤ n := by
        simp [List.length_take]
      have hst' : st.current + (source.take n).length ≤ st.limit := by omega
      have := ih ⟨st.limit, st.current + (source.take n).length⟩ (source.drop n) hst'
      simp only at this
      omega

/-- C9: a `ReadLimiter` with ceiling `limit` rejects — before touching the
underlying reader, with the read-limit-exceeded error and without
consuming anything — every request whose capacity plus the bytes already
consumed exceeds the ceiling; consequently, across any sequence of
requests, the bytes delivered through a fresh limiter never total more
than the ceiling. -/
theorem claim_c9_read_limiter :
    (∀ (st : ReadLimiter) (source : List Nat) (remaining : Nat),
        st.limit < st.current + remaining →
        ReadLimiter.poll_read st source remaining = (.error .readLimitExceeded, st, source)) ∧
    (∀ (limit : Nat) (source : List Nat) (reqs : List Nat),
        (read_limiter_run ⟨limit, 0⟩ source reqs).length ≤ limit) := by
  constructor
  · intro st source remaining hover
    unfold ReadLimiter.poll_read
    simp [hover]
  · intro limit source reqs
    have := read_limiter_run_le reqs ⟨limit, 0⟩ source (by simp)
    simpa using this

theorem claim_c9_read_limiter_witness :
    ((⟨2, 0⟩ : ReadLimiter).limit < (⟨2, 0⟩ : ReadLimiter).current + 3) ∧
    ReadLimiter.poll_read ⟨2, 0⟩ [1, 2, 3] 3 =
      (.error .readLimitExceeded, (⟨2, 0⟩ : ReadLimiter), [1, 2, 3]) :=
  ⟨by decide, claim_c9_read_limiter.1 ⟨2, 0⟩ [1, 2, 3] 3 (by decide)⟩

/-! ## `Size` and the homogeneous-sequence size computation
(`src/transport/packet.rs`, `src/transport/packet/vec.rs`)

`VecDelegate::<T>::size` and the identical `Vec::<T>::size_owned` start a
dynamic counter at the VarNum size of the element count, walk the
elements, and *return early* the first time an element reports a
`Constant` size — wrapping `elemSize * count + varIntSize` in `Dynamic`. -/

inductive Size where
  | Dynamic (n : Nat)
  | Constant (n : Nat)
deriving DecidableEq, Repr

/-- The `for item in input` loop of `VecDelegate::size` (and of
`Vec::size_owned`), parameterised by the delegate's `size` function. -/
def vec_delegate_size_loop {α : Type} (size : α → Size) (len var_int_size : Nat) :
    List α → Nat → Size
  | [], dynamic_counter => .Dynamic dynamic_counter
  | item :: items, dynamic_counter =>
    match size item with
    | .Constant x => .Dynamic (x * len + var_int_size)
    | .Dynamic x => vec_delegate_size_loop size len var_int_size items (dynamic_counter + x)

/-- `VecDelegate::<T>::size` (identically `Vec::<T>::size_owned`):
VarNum-count-prefixed homogeneous sequence sizing. -/
def vec_delegate_size {α : Type} (size : α → Size) (input : List α) : Size :=
  let var_int_size := size_var_int (i32_of_usize input.length)
  vec_delegate_size_loop size input.length var_int_size input var_int_size

/-- C6 counterexample: for a sequence of two elements that each report
`Constant 4`, `size` does not return `Constant (4 * 2)` — it returns
`Dynamic (4 * 2 + 1)`, where `1` is the VarNum size of the count 2. -/
theorem claim_c6_counterexample :
    vec_delegate_size (fun _ : Unit => Size.Constant 4) [(), ()] = Size.Dynamic 9 ∧
    Size.Dynamic 9 ≠ Size.Constant (4 * 2) := by
  constructor
  · simp [vec_delegate_size, vec_delegate_size_loop, size_var_int, i32_of_usize,
      signed_of_unsigned, u32_of_i32, unsigned_of_signed, size_var_num_loop, var_num_mask]
    decide
  · decide

theorem vec_delegate_size_loop_all_dynamic {α : Type} (size : α → Size) (g : α → Nat)
    (len vis : Nat) :
    ∀ (input : List α) (dc : Nat), (∀ x ∈ input, size x = .Dynamic (g x)) →
      vec_delegate_size_loop size len vis input dc = .Dynamic (dc + (input.map g).sum) := by
  intro input
  induction input with
  | nil => intro dc _; simp [vec_delegate_size_loop]
  | cons x xs ih =>
    intro dc h
    rw [vec_delegate_size_loop]
    rw [h x (List.mem_cons_self x xs)]
    show vec_delegate_size_loop size len vis xs (dc + g x) =
      Size.Dynamic (dc + (List.map g (x :: xs)).sum)
    rw [ih (dc + g x) (fun y hy => h y (List.mem_cons_of_mem x hy))]
    simp only [List.map_cons, List.sum_cons]
    congr 1
    omega

theorem vec_delegate_size_loop_first_constant {α : Type} (size : α → Size)
    (len vis : Nat) (x : α) (c : Nat) (post : List α) (hx : size x = .Constant c) :
    ∀ (pre : List α) (dc : Nat), (∀ y ∈ pre, ∃ d, size y = .Dynamic d) →
      vec_delegate_size_loop size len vis (pre ++ x :: post) dc = .Dynamic (c * len + vis) := by
  intro pre
  induction pre with
  | nil =>
    intro dc _
    rw [List.nil_append, vec_delegate_size_loop, hx]
  | cons y ys ih =>
    intro dc h
    obtain ⟨d, hd⟩ := h y (List.mem_cons_self y ys)
    rw [List.cons_append, vec_delegate_size_loop, hd]
    exact ih (dc + d) (fun z hz => h z (List.mem_cons_of_mem y hz))

/-- C6 amended: for the VarNum-count-prefixed homogeneous sequence
components (`VecDelegate::size`, `Vec::size_owned`), the result is always
`Dynamic`: if every element reports a dynamic size the element sizes are
accumulated onto the VarNum size of the count, and as soon as an element
reports a `Constant c` the loop short-circuits — without examining the
remaining elements — to `Dynamic (c * count + varIntSize(count))`. -/
theorem claim_c6_amended_sequence_size :
    (∀ (α : Type) (size : α → Size) (g : α → Nat) (input : List α),
        (∀ x ∈ input, size x = .Dynamic (g x)) →
        vec_delegate_size size input =
          .Dynamic (size_var_int (i32_of_usize input.length) + (input.map g).sum)) ∧
    (∀ (α : Type) (size : α → Size) (pre : List α) (x : α) (post : List α) (c : Nat),
        (∀ y ∈ pre, ∃ d, size y = .Dynamic d) → size x = .Constant c →
        vec_delegate_size size (pre ++ x :: post) =
          .Dynamic (c * (pre ++ x :: post).length +
            size_var_int (i32_of_usize (pre ++ x :: post).length))) := by
  constructor
  · intro α size g input h
    unfold vec_delegate_size
    rw [vec_delegate_size_loop_all_dynamic size g _ _ input _ h]
  · intro α size pre x post c hpre hx
    unfold vec_delegate_size
    rw [vec_delegate_size_loop_first_constant size _ _ x c post hx pre _ hpre]

theorem claim_c6_amended_sequence_size_witness :
    (∀ x ∈ [(), ()], (fun _ : Unit => Size.Dynamic 3) x = Size.Dynamic ((fun _ => 3) x)) ∧
    vec_delegate_size (fun _ : Unit => Size.Dynamic 3) [(), ()] =
      Size.Dynamic (size_var_int (i32_of_usize ([(), ()] : List Unit).length) +
        (([(), ()] : List Unit).map (fun _ => 3)).sum) :=
  ⟨fun x _ => rfl,
    claim_c6_amended_sequence_size.1 Unit (fun _ => Size.Dynamic 3) (fun _ => 3) [(), ()]
      (fun x _ => rfl)⟩

end Drax

namespace DraxCore

/-! ## The legacy core crate (`drax_core`)

Error values: the crate surfaces failures as `transport::Error` values
built from message strings (`Error::cause(...)`) or wrapped causes; we
give each distinct throw site its own constructor. -/

inductive Error where
  | varIntTooBig        -- "Var int too big, could not find end."
  | noByteReady         -- "Invalid read, no byte ready."
  | numericOverflow     -- `TryIntoError` from a failed integer conversion
  | decompressMismatch  -- "Actual decoded {} is not the same as data length {}"
  | nbtTooBig           -- "Nbt tag too big, read {} bytes of allowed {}."
  | accounterOverflow   -- "Overflowed bits in accounter."
  | depthExceeded       -- "Nbt tag depth exceeded 512."
  | missingListType     -- "Missing type on list tag."
  | unknownTagBit (bit : Nat)  -- "Unknown tag bit {}"
  | underRead           -- "Invalid NBT string, under read."
  | cesu8Error          -- "Cesu8 encoding error: {}"
  | eof                 -- an underlying byte read hit the end of the source
deriving DecidableEq, Repr

/-! ### Synchronous VarNum (`drax_core/src/extension.rs`,
macro `declare_variable_number!`)

The write and size loops of the macro are byte-for-byte the loops already
embedded as `Drax.write_var_num_loop` / `Drax.size_var_num_loop` (same
mask `0xFFFFFF80u32`, same shifts, same final `as u8` cast), so they are
reused.  The read loop differs from the async one only in the limit test
(`==` instead of `>=`, equivalent since the offset grows in steps of 7
from 0) and in its error values. -/

def dc_read_var_num_loop (w bitLimit : Nat) :
    List Nat → Nat → Nat → Except Error (Nat × List Nat)
  | bytes, value, bitOffset =>
    if bitOffset = bitLimit then
      .error .varIntTooBig
    else
      match bytes with
      | [] => .error .noByteReady
      | byte :: rest =>
        let value := value ||| ((byte &&& 0x7F) <<< bitOffset % 2 ^ w)
        if byte &&& 0x80 = 0 then
          .ok (value, rest)
        else
          dc_read_var_num_loop w bitLimit rest value (bitOffset + 7)

/-- `read_var_int_sync`. -/
def read_var_int_sync (bytes : List Nat) : Except Error (Int × List Nat) :=
  match dc_read_var_num_loop 32 35 bytes 0 0 with
  | .ok (v, rest) => .ok (Drax.i32_of_u32 v, rest)
  | .error e => .error e

/-- `write_var_int_sync` (same emission loop as the async writer). -/
def write_var_int_sync (var : Int) : List Nat :=
  Drax.write_var_num_loop 32 (Drax.u32_of_i32 var)

/-- `size_var_int` of `drax_core/src/extension.rs` (same loop as the
current crate's). -/
def dc_size_var_int (var : Int) : Nat :=
  Drax.size_var_num_loop 32 (Drax.u32_of_i32 var) 0

/-! ### Frame pipeline (`drax_core/src/transport/frame.rs`)

The DEFLATE compressor and decompressor are external collaborators
(`flate2`); they enter the model as opaque function parameters.  The
embedding below is the crate as compiled **with** the `compression`
feature, which is the configuration in which the `compression_threshold`
field referred to by the claim exists at all; `cfg!(feature =
"compression")` is then true, so `FrameEncoder::process` takes the
compressed-frame path unconditionally. -/

structure PacketFrame where
  packet_id : Int
  data : List Nat
deriving DecidableEq, Repr

structure CompressedPacketFrame where
  decompressed_data_length : Int
  compressed_data : List Nat
deriving DecidableEq, Repr

/-- `FrameEncoder::create_uncompressed_packet` (the path compiled when the
`compression` feature is absent). -/
def create_uncompressed_packet (frame : PacketFrame) : List Nat :=
  write_var_int_sync frame.packet_id ++ frame.data

/-- `FrameEncoder::create_compressed_packet_frame`.  A negative threshold
is compared as `self.compression_threshold as usize`, i.e. after a
two's-complement cast. -/
def create_compressed_packet_frame (compress : List Nat → List Nat)
    (compression_threshold : Int) (frame : PacketFrame) :
    Except Error CompressedPacketFrame :=
  let data := write_var_int_sync frame.packet_id ++ frame.data
  let true_data_len := data.length
  if data.length < Drax.usize_of_isize compression_threshold then
    .ok ⟨0, data⟩
  else
    if true_data_len < 2 ^ 31 then
      .ok ⟨true_data_len, compress data⟩
    else
      .error .numericOverflow

/-- `FrameEncoder::process` (with the `compression` feature compiled in,
`cfg!(feature = "compression")` is true). -/
def frame_encoder_process (compress : List Nat → List Nat)
    (compression_threshold : Int) (input : PacketFrame) : Except Error (List Nat) :=
  match create_compressed_packet_frame compress compression_threshold input with
  | .error e => .error e
  | .ok cf =>
    .ok (write_var_int_sync cf.decompressed_data_length ++ cf.compressed_data)

/-- `FrameDecoder::read_raw_packet`. -/
def read_raw_packet (data : List Nat) : Except Error PacketFrame :=
  match read_var_int_sync data with
  | .error e => .error e
  | .ok (packet_id, rest) => .ok ⟨packet_id, rest⟩

/-- `FrameDecoder::decompress_frame`. -/
def decompress_frame (decompress : List Nat → List Nat)
    (frame : CompressedPacketFrame) : Except Error PacketFrame :=
  let data_length := Drax.usize_of_isize frame.decompressed_data_length
  let dataE : Except Error (List Nat) :=
    if data_length = 0 then
      .ok frame.compressed_data
    else
      let preconditioned := decompress frame.compressed_data
      if preconditioned.length ≠ data_length then
        .error .decompressMismatch
      else
        .ok preconditioned
  match dataE with
  | .error e => .error e
  | .ok data =>
    match read_var_int_sync data with
    | .error e => .error e
    | .ok (packet_id, rest) => .ok ⟨packet_id, rest⟩

/-- `FrameDecoder::process`. -/
def frame_decoder_process (decompress : List Nat → List Nat)
    (compression_threshold : Int) (input : List Nat) : Except Error PacketFrame :=
  if compression_threshold ≥ 0 then
    match read_var_int_sync input with
    | .error e => .error e
    | .ok (decompressed_data_length, rest) =>
      decompress_frame decompress ⟨decompressed_data_length, rest⟩
  else
    read_raw_packet input

theorem write_var_int_sync_zero : write_var_int_sync 0 = [0] := by
  unfold write_var_int_sync Drax.u32_of_i32 Drax.unsigned_of_signed
  rw [Drax.write_var_num_loop]
  norm_num

/-- C7 evaluated at its failing input: with the `compression` feature
compiled and the threshold negative (compression disabled),
`FrameEncoder::process` does NOT emit `varint(packet_id) ++ data`; it
prepends the `0` "not compressed" declared-length marker byte, because the
encoder branches on `cfg!(feature = "compression")` and never consults the
sign of the threshold.  Its own counterpart `FrameDecoder::process` with
the same negative threshold expects no marker, so the encoder's output
decodes back to a different frame: the marker byte is consumed as the
packet id and the real packet id byte leaks into the data. -/
theorem claim_c7_frame_encoder_marker_code_bug :
    ∀ compress decompress : List Nat → List Nat,
      frame_encoder_process compress (-1) ⟨0, [1, 2, 3]⟩ = .ok [0, 0, 1, 2, 3] ∧
      ([0, 0, 1, 2, 3] : List Nat) ≠ write_var_int_sync 0 ++ [1, 2, 3] ∧
      frame_decoder_process decompress (-1) [0, 0, 1, 2, 3] = .ok ⟨0, [0, 1, 2, 3]⟩ ∧
      (⟨0, [0, 1, 2, 3]⟩ : PacketFrame) ≠ ⟨0, [1, 2, 3]⟩ := by
  intro compress decompress
  refine ⟨?_, ?_, ?_, by decide⟩
  · unfold frame_encoder_process create_compressed_packet_frame
    rw [write_var_int_sync_zero]
    have hthr : Drax.usize_of_isize (-1) = 2 ^ 64 - 1 := by
      unfold Drax.usize_of_isize Drax.unsigned_of_signed
      decide
    rw [hthr]
    norm_num
    rw [write_var_int_sync_zero]
    rfl
  · rw [write_var_int_sync_zero]
    decide
  · unfold frame_decoder_process
    norm_num
    unfold read_raw_packet read_var_int_sync
    rw [dc_read_var_num_loop]
    norm_num [Drax.i32_of_u32, Drax.signed_of_unsigned]

end DraxCore

namespace Drax

/-! ## NBT tag codec (`src/nbt.rs`, macro `define_tags!`)

Rust `String`s are modelled as lists of Unicode scalar values.  The
`cesu8` crate used for the wire encoding is an external collaborator, so
its two entry points are modelled from the spec. -/

/-- Modelled from the spec: the external cesu8 crate's `to_java_cesu8` on
one Unicode scalar value — Java "modified UTF-8" (CESU-8 with NUL encoded
as `C0 80` and supplementary characters as a six-byte surrogate pair),
spec sections 4.2 and 6. -/
def java_cesu8_char (cp : Nat) : List Nat :=
  if cp = 0 then [0xC0, 0x80]
  else if cp < 0x80 then [cp]
  else if cp < 0x800 then [0xC0 ||| (cp >>> 6), 0x80 ||| (cp &&& 0x3F)]
  else if cp < 0x10000 then
    [0xE0 ||| (cp >>> 12), 0x80 ||| ((cp >>> 6) &&& 0x3F), 0x80 ||| (cp &&& 0x3F)]
  else
    [0xE0 ||| ((0xD800 + ((cp - 0x10000) >>> 10)) >>> 12),
     0x80 ||| (((0xD800 + ((cp - 0x10000) >>> 10)) >>> 6) &&& 0x3F),
     0x80 ||| ((0xD800 + ((cp - 0x10000) >>> 10)) &&& 0x3F),
     0xE0 ||| ((0xDC00 + ((cp - 0x10000) &&& 0x3FF)) >>> 12),
     0x80 ||| (((0xDC00 + ((cp - 0x10000) &&& 0x3FF)) >>> 6) &&& 0x3F),
     0x80 ||| ((0xDC00 + ((cp - 0x10000) &&& 0x3FF)) &&& 0x3F)]

/-- Modelled from the spec: `cesu8::to_java_cesu8` over a whole string. -/
def to_java_cesu8 : List Nat → List Nat
  | [] => []
  | c :: cs => java_cesu8_char c ++ to_java_cesu8 cs

/-- UTF-8 byte width of one Unicode scalar value (`String::len` counts
UTF-8 bytes). -/
def utf8_char_len (cp : Nat) : Nat :=
  if cp < 0x80 then 1 else if cp < 0x800 then 2 else if cp < 0x10000 then 3 else 4

/-- `String::len` (UTF-8 byte length) of a decoded string. -/
def utf8_len : List Nat → Nat
  | [] => 0
  | c :: cs => utf8_char_len c + utf8_len cs

/-- Failure modes of the NBT reader (`src/nbt.rs`); every `throw_explain!`
site gets its own constructor. -/
inductive NbtError where
  | eof                 -- an underlying tokio read hit the end of the source
  | tooBig              -- "Nbt tag too big, read {} bytes of allowed {}."
  | accounterOverflow   -- "Overflowed bits in accounter."
  | depthExceeded       -- "NBT tag too complex. Depth surpassed 512."
  | invalidBit (bit : Nat)  -- "Invalid bit {} found while loading tag."
  | cesu8Error          -- decoding error propagated from `cesu8::from_java_cesu8`
  | fuelExhausted       -- artefact of the fuelled embedding; never hit from the entry point
deriving DecidableEq, Repr

/-- Modelled from the spec: `cesu8::from_java_cesu8`, the inverse of
`to_java_cesu8`; rejects ill-formed sequences (including raw NUL bytes and
unpaired surrogates) as the hard decode failure of spec section 4.5. -/
def from_java_cesu8 : List Nat → Except NbtError (List Nat)
  | [] => .ok []
  | b :: rest =>
    if b = 0 then .error .cesu8Error
    else if b < 0x80 then
      match from_java_cesu8 rest with
      | .ok cs => .ok (b :: cs)
      | .error e => .error e
    else if b < 0xC0 then .error .cesu8Error
    else if b < 0xE0 then
      match rest with
      | b1 :: rest1 =>
        if b1 &&& 0xC0 = 0x80 then
          match from_java_cesu8 rest1 with
          | .ok cs => .ok ((((b &&& 0x1F) <<< 6) ||| (b1 &&& 0x3F)) :: cs)
          | .error e => .error e
        else .error .cesu8Error
      | [] => .error .cesu8Error
    else if b < 0xF0 then
      match rest with
      | b1 :: b2 :: rest2 =>
        if b1 &&& 0xC0 = 0x80 ∧ b2 &&& 0xC0 = 0x80 then
          let u := ((b &&& 0x0F) <<< 12) ||| ((b1 &&& 0x3F) <<< 6) ||| (b2 &&& 0x3F)
          if u < 0xD800 ∨ 0xDFFF < u then
            match from_java_cesu8 rest2 with
            | .ok cs => .ok (u :: cs)
            | .error e => .error e
          else if u < 0xDC00 then
            -- high surrogate: a low surrogate in three more bytes must follow
            match rest2 with
            | c0 :: c1 :: c2 :: rest3 =>
              if 0xE0 ≤ c0 ∧ c0 < 0xF0 ∧ c1 &&& 0xC0 = 0x80 ∧ c2 &&& 0xC0 = 0x80 then
                let v := ((c0 &&& 0x0F) <<< 12) ||| ((c1 &&& 0x3F) <<< 6) ||| (c2 &&& 0x3F)
                if 0xDC00 ≤ v ∧ v ≤ 0xDFFF then
                  match from_java_cesu8 rest3 with
                  | .ok cs => .ok ((0x10000 + ((u - 0xD800) <<< 10) + (v - 0xDC00)) :: cs)
                  | .error e => .error e
                else .error .cesu8Error
              else .error .cesu8Error
            | _ => .error .cesu8Error
          else .error .cesu8Error
        else .error .cesu8Error
      | _ => .error .cesu8Error
    else .error .cesu8Error

/-! ### Byte-level reads (tokio `AsyncReadExt` on an in-memory source) -/

/-- Big-endian bytes of the low `8 * width` bits of `v`. -/
def be_bytes : Nat → Nat → List Nat
  | 0, _ => []
  | w + 1, v => (v >>> (8 * w)) % 2 ^ 8 :: be_bytes w v

theorem be_bytes_length (w v : Nat) : (be_bytes w v).length = w := by
  induction w generalizing v with
  | zero => rfl
  | succ w ih => simp [be_bytes, ih]

/-- Big-endian value of a list of bytes. -/
def be_val : List Nat → Nat
  | [] => 0
  | b :: rest => b * 2 ^ (8 * rest.length) + be_val rest

/-- `read_exact` into a buffer of `n` bytes. -/
def read_exact (n : Nat) (bytes : List Nat) : Except NbtError (List Nat × List Nat) :=
  if n ≤ bytes.length then .ok (bytes.take n, bytes.drop n) else .error .eof

/-- `read_u8`. -/
def read_u8 : List Nat → Except NbtError (Nat × List Nat)
  | [] => .error .eof
  | b :: rest => .ok (b, rest)

/-- Read a `width`-byte big-endian unsigned value. -/
def read_be (width : Nat) (bytes : List Nat) : Except NbtError (Nat × List Nat) :=
  match read_exact width bytes with
  | .ok (chunk, rest) => .ok (be_val chunk, rest)
  | .error e => .error e

/-- `read_u16`. -/
def read_u16 (bytes : List Nat) : Except NbtError (Nat × List Nat) := read_be 2 bytes

/-- `read_i32` (big-endian, reinterpreted as signed). -/
def read_i32 (bytes : List Nat) : Except NbtError (Int × List Nat) :=
  match read_be 4 bytes with
  | .ok (v, rest) => .ok (i32_of_u32 v, rest)
  | .error e => .error e

/-- `read_i64`. -/
def read_i64 (bytes : List Nat) : Except NbtError (Int × List Nat) :=
  match read_be 8 bytes with
  | .ok (v, rest) => .ok (i64_of_u64 v, rest)
  | .error e => .error e

/-! ### `NbtAccounter` -/

structure NbtAccounter where
  limit : Nat
  current : Nat
deriving DecidableEq, Repr

/-- `NbtAccounter::account_bytes`: disabled when the limit is zero;
otherwise a `u64` checked add followed by the ceiling test. -/
def NbtAccounter.account_bytes (acc : NbtAccounter) (bytes : Nat) : Except NbtError NbtAccounter :=
  if acc.limit = 0 then .ok acc
  else if acc.current + bytes ≥ 2 ^ 64 then .error .accounterOverflow
  else if acc.current + bytes > acc.limit then .error .tooBig
  else .ok ⟨acc.limit, acc.current + bytes⟩

/-! ### `Tag` and the sizer/writer of `define_tags!`

The thirteen variants in macro order; the variant index is the tag's wire
type id (`get_tag_bit` uses `${index(0)}`).  Float and double payloads are
carried as their raw 32 and 64 bit patterns (the codec only moves them). -/

inductive Tag where
  | TagEnd
  | TagByte (value : Nat)
  | TagShort (value : Nat)
  | TagInt (value : Int)
  | TagLong (value : Int)
  | TagFloat (bits : Nat)
  | TagDouble (bits : Nat)
  | TagByteArray (bytes : List Nat)
  | TagString (chars : List Nat)
  | TagList (elem_bit : Nat) (items : List Tag)
  | CompoundTag (entries : List (List Nat × Tag))
  | TagIntArray (values : List Int)
  | TagLongArray (values : List Int)

/-- `Tag::get_tag_bit`. -/
def Tag.get_tag_bit : Tag → Nat
  | .TagEnd => 0
  | .TagByte _ => 1
  | .TagShort _ => 2
  | .TagInt _ => 3
  | .TagLong _ => 4
  | .TagFloat _ => 5
  | .TagDouble _ => 6
  | .TagByteArray _ => 7
  | .TagString _ => 8
  | .TagList _ _ => 9
  | .CompoundTag _ => 10
  | .TagIntArray _ => 11
  | .TagLongArray _ => 12

/-- `size_string`. -/
def size_string (reference : List Nat) : Except NbtError Nat :=
  .ok (2 + (to_java_cesu8 reference).length)

/-- `write_string`: a `u16` header holding `len as u16`, then all the
CESU-8 bytes (`write_all` writes them all even if the header truncated). -/
def write_string (reference : List Nat) : List Nat :=
  be_bytes 2 (to_java_cesu8 reference).length ++ to_java_cesu8 reference

mutual

/-- `size_tag` of `define_tags!`. -/
def size_tag : Tag → Except NbtError Nat
  | .TagEnd => .ok 0
  | .TagByte _ => .ok 1
  | .TagShort _ => .ok 2
  | .TagInt _ => .ok 4
  | .TagLong _ => .ok 8
  | .TagFloat _ => .ok 4
  | .TagDouble _ => .ok 8
  | .TagByteArray reference => .ok (4 + reference.length)
  | .TagString reference => size_string reference
  | .TagList _ items =>
    match size_tag_list items with
    | .ok n => .ok (5 + n)
    | .error e => .error e
  | .CompoundTag reference =>
    if reference.isEmpty then .ok 1
    else
      match size_tag_entries reference with
      | .ok n => .ok (n + 1)
      | .error e => .error e
  | .TagIntArray reference => .ok (4 + 4 * reference.length)
  | .TagLongArray reference => .ok (4 + 8 * reference.length)

/-- The `for item in &reference.1 { size += size_tag(item)? }` loop. -/
def size_tag_list : List Tag → Except NbtError Nat
  | [] => .ok 0
  | t :: ts =>
    match size_tag t with
    | .error e => .error e
    | .ok a =>
      match size_tag_list ts with
      | .error e => .error e
      | .ok b => .ok (a + b)

/-- The `for (key, value) in reference` loop of the compound sizer:
`size_string(key)? + 1` plus `size_tag(value)?` per entry. -/
def size_tag_entries : List (List Nat × Tag) → Except NbtError Nat
  | [] => .ok 0
  | (key, value) :: rest =>
    match size_string key with
    | .error e => .error e
    | .ok ks =>
      match size_tag value with
      | .error e => .error e
      | .ok vs =>
        match size_tag_entries rest with
        | .error e => .error e
        | .ok n => .ok (ks + 1 + vs + n)

end

/-- The `for item in reference { write_i32 }` loop of `TagIntArray`. -/
def write_i32_list : List Int → List Nat
  | [] => []
  | i :: is => be_bytes 4 (u32_of_i32 i) ++ write_i32_list is

/-- The `for item in reference { write_i64 }` loop of `TagLongArray`. -/
def write_i64_list : List Int → List Nat
  | [] => []
  | i :: is => be_bytes 8 (u64_of_i64 i) ++ write_i64_list is

mutual

/-- `write_tag` of `define_tags!`: the bytes the writer sends. -/
def write_tag : Tag → List Nat
  | .TagEnd => []
  | .TagByte reference => [reference]
  | .TagShort reference => be_bytes 2 reference
  | .TagInt reference => be_bytes 4 (u32_of_i32 reference)
  | .TagLong reference => be_bytes 8 (u64_of_i64 reference)
  | .TagFloat bits => be_bytes 4 bits
  | .TagDouble bits => be_bytes 8 bits
  | .TagByteArray reference =>
    be_bytes 4 (u32_of_i32 (i32_of_usize reference.length)) ++ reference
  | .TagString reference => write_string reference
  | .TagList elem_bit items =>
    elem_bit :: be_bytes 4 (u32_of_i32 (i32_of_usize items.length)) ++ write_tag_list items
  | .CompoundTag reference =>
    if reference.isEmpty then [0]
    else write_tag_entries reference ++ [0]
  | .TagIntArray reference =>
    be_bytes 4 (u32_of_i32 (i32_of_usize reference.length)) ++ write_i32_list reference
  | .TagLongArray reference =>
    be_bytes 4 (u32_of_i32 (i32_of_usize reference.length)) ++ write_i64_list reference

/-- The `for tag in &reference.1 { write_tag(...) }` loop. -/
def write_tag_list : List Tag → List Nat
  | [] => []
  | t :: ts => write_tag t ++ write_tag_list ts

/-- The compound writer loop: per entry one id byte, the key string, the
value. -/
def write_tag_entries : List (List Nat × Tag) → List Nat
  | [] => []
  | (key, value) :: rest =>
    value.get_tag_bit :: (write_string key ++ write_tag value ++ write_tag_entries rest)

end

/-! ### C1: `size_tag` equals the byte count of `write_tag` -/

theorem write_string_length (s : List Nat) :
    (write_string s).length = 2 + (to_java_cesu8 s).length := by
  unfold write_string
  simp [be_bytes_length]

theorem write_i32_list_length (is : List Int) :
    (write_i32_list is).length = 4 * is.length := by
  induction is with
  | nil => rfl
  | cons i is ih => simp [write_i32_list, be_bytes_length, ih]; omega

theorem write_i64_list_length (is : List Int) :
    (write_i64_list is).length = 8 * is.length := by
  induction is with
  | nil => rfl
  | cons i is ih => simp [write_i64_list, be_bytes_length, ih]; omega

mutual

theorem size_tag_eq_write_length (t : Tag) : size_tag t = .ok (write_tag t).length := by
  cases t with
  | TagEnd => simp [size_tag, write_tag]
  | TagByte r => simp [size_tag, write_tag]
  | TagShort r => simp [size_tag, write_tag, be_bytes_length]
  | TagInt r => simp [size_tag, write_tag, be_bytes_length]
  | TagLong r => simp [size_tag, write_tag, be_bytes_length]
  | TagFloat r => simp [size_tag, write_tag, be_bytes_length]
  | TagDouble r => simp [size_tag, write_tag, be_bytes_length]
  | TagByteArray r => simp [size_tag, write_tag, be_bytes_length]
  | TagString s => simp [size_tag, write_tag, size_string, write_string_length]
  | TagList b items =>
    have ih := size_tag_list_eq_write_length items
    simp [size_tag, write_tag, ih, be_bytes_length]
    omega
  | CompoundTag entries =>
    cases entries with
    | nil => simp [size_tag, write_tag]
    | cons e rest =>
      have ih := size_tag_entries_eq_write_length (e :: rest)
      simp [size_tag, write_tag, ih]
  | TagIntArray r => simp [size_tag, write_tag, be_bytes_length, write_i32_list_length]
  | TagLongArray r => simp [size_tag, write_tag, be_bytes_length, write_i64_list_length]

theorem size_tag_list_eq_write_length (ts : List Tag) :
    size_tag_list ts = .ok (write_tag_list ts).length := by
  cases ts with
  | nil => simp [size_tag_list, write_tag_list]
  | cons t ts =>
    have ih1 := size_tag_eq_write_length t
    have ih2 := size_tag_list_eq_write_length ts
    simp [size_tag_list, write_tag_list, ih1, ih2]

theorem size_tag_entries_eq_write_length (es : List (List Nat × Tag)) :
    size_tag_entries es = .ok (write_tag_entries es).length := by
  cases es with
  | nil => simp [size_tag_entries, write_tag_entries]
  | cons e rest =>
    have ih1 := size_tag_eq_write_length e.2
    have ih2 := size_tag_entries_eq_write_length rest
    obtain ⟨key, value⟩ := e
    simp [size_tag_entries, write_tag_entries, size_string, ih1, ih2, write_string_length]
    omega

end

/-- C1: for every NBT tag value `t`, including nested lists and
compounds, `size_tag t` returns `Ok n` where `n` is exactly the number of
bytes `write_tag t` writes to the sink. -/
theorem claim_c1_size_tag_matches_write_tag (t : Tag) :
    size_tag t = .ok (write_tag t).length :=
  size_tag_eq_write_length t

/-! ### `load_tag` (the read sides of `define_tags!`)

The reader is an async recursion through `Box::pin`; the embedding uses a
fuel parameter to drive the Lean recursion.  Fuel only decreases when the
recursion enters a nested tag or moves to the next compound entry, so the
entry point's `bytes.length + 1` budget (every nesting level and every
compound entry consumes at least one input byte) keeps `fuelExhausted`
unreachable on runs the Rust loop completes. -/

/-- `read_string` of `src/nbt.rs`: `u16` length, that many bytes,
`cesu8::from_java_cesu8`, then account the decoded `String::len`. -/
def nbt_read_string (bytes : List Nat) (accounter : NbtAccounter) :
    Except NbtError (List Nat × List Nat × NbtAccounter) :=
  match read_u16 bytes with
  | .error e => .error e
  | .ok (len, rest) =>
    match read_exact len rest with
    | .error e => .error e
    | .ok (raw, rest) =>
      match from_java_cesu8 raw with
      | .error e => .error e
      | .ok string =>
        match accounter.account_bytes (utf8_len string) with
        | .error e => .error e
        | .ok accounter => .ok (string, rest, accounter)

/-- `4 * length` computed on `i32` (release-mode wrapping) before the
`as u64` cast. -/
def i32_wrapping_mul (a b : Int) : Int :=
  i32_of_u32 (u32_of_i32 a * u32_of_i32 b % 2 ^ 32)

/-- The `for _ in 0..len` loop of `TagIntArray`. -/
def read_i32_list : Nat → List Nat → Except NbtError (List Int × List Nat)
  | 0, bytes => .ok ([], bytes)
  | n + 1, bytes =>
    match read_i32 bytes with
    | .error e => .error e
    | .ok (i, rest) =>
      match read_i32_list n rest with
      | .error e => .error e
      | .ok (is, rest) => .ok (i :: is, rest)

/-- The `for _ in 0..len` loop of `TagLongArray`. -/
def read_i64_list : Nat → List Nat → Except NbtError (List Int × List Nat)
  | 0, bytes => .ok ([], bytes)
  | n + 1, bytes =>
    match read_i64 bytes with
    | .error e => .error e
    | .ok (i, rest) =>
      match read_i64_list n rest with
      | .error e => .error e
      | .ok (is, rest) => .ok (i :: is, rest)

/-- Propagation of `?` results through the reader: `Except` bind on a
success. -/
theorem except_bind_ok {e a b : Type} (x : a) (f : a -> Except e b) :
    (Except.ok x >>= f) = f x := rfl

/-- Propagation of `?` results through the reader: `Except` bind on a
failure aborts the rest of the case. -/
theorem except_bind_error {e a b : Type} (err : e) (f : a -> Except e b) :
    ((Except.error err : Except e a) >>= f) = .error err := rfl

theorem except_pure {e a : Type} (x : a) : (pure x : Except e a) = .ok x := rfl

mutual

/-- `load_tag`: dispatch on the thirteen type ids; each case first charges
its fixed overhead, list and compound check the depth, then the wire
payload is read. -/
def load_tag : (fuel bit : Nat) → List Nat → (depth : Nat) → NbtAccounter →
    Except NbtError (Tag × List Nat × NbtAccounter)
  | 0, _, _, _, _ => .error .fuelExhausted
  | _ + 1, 0, bytes, _, accounter => do
    let accounter ← accounter.account_bytes 8
    return (.TagEnd, bytes, accounter)
  | _ + 1, 1, bytes, _, accounter => do
    let accounter ← accounter.account_bytes 9
    let (v, rest) ← read_u8 bytes
    return (.TagByte v, rest, accounter)
  | _ + 1, 2, bytes, _, accounter => do
    let accounter ← accounter.account_bytes 10
    let (v, rest) ← read_u16 bytes
    return (.TagShort v, rest, accounter)
  | _ + 1, 3, bytes, _, accounter => do
    let accounter ← accounter.account_bytes 12
    let (v, rest) ← read_i32 bytes
    return (.TagInt v, rest, accounter)
  | _ + 1, 4, bytes, _, accounter => do
    let accounter ← accounter.account_bytes 16
    let (v, rest) ← read_i64 bytes
    return (.TagLong v, rest, accounter)
  | _ + 1, 5, bytes, _, accounter => do
    let accounter ← accounter.account_bytes 12
    let (bits, rest) ← read_be 4 bytes
    return (.TagFloat bits, rest, accounter)
  | _ + 1, 6, bytes, _, accounter => do
    let accounter ← accounter.account_bytes 16
    let (bits, rest) ← read_be 8 bytes
    return (.TagDouble bits, rest, accounter)
  | _ + 1, 7, bytes, _, accounter => do
    let accounter ← accounter.account_bytes 24
    let (len, rest) ← read_i32 bytes
    let accounter ← accounter.account_bytes (u64_of_i32 len)
    let (arr, rest) ← read_exact (u64_of_i32 len) rest
    return (.TagByteArray arr, rest, accounter)
  | _ + 1, 8, bytes, _, accounter => do
    let accounter ← accounter.account_bytes 36
    let (s, rest, accounter) ← nbt_read_string bytes accounter
    return (.TagString s, rest, accounter)
  | fuel + 1, 9, bytes, depth, accounter => do
    let accounter ← accounter.account_bytes 37
    if depth > 512 then
      .error .depthExceeded
    else do
      let (tag_byte, rest) ← read_u8 bytes
      let (length, rest) ← read_i32 rest
      let accounter ← accounter.account_bytes (u64_of_i32 (i32_wrapping_mul 4 length))
      let (v, rest, accounter) ← load_list fuel tag_byte length.toNat rest (depth + 1) accounter
      return (.TagList tag_byte v, rest, accounter)
  | fuel + 1, 10, bytes, depth, accounter => do
    let accounter ← accounter.account_bytes 48
    if depth > 512 then
      .error .depthExceeded
    else do
      let (map, rest, accounter) ← load_compound fuel bytes depth accounter
      return (.CompoundTag map, rest, accounter)
  | _ + 1, 11, bytes, _, accounter => do
    let accounter ← accounter.account_bytes 24
    let (len, rest) ← read_i32 bytes
    let accounter ← accounter.account_bytes (u64_of_i32 (i32_wrapping_mul 4 len))
    let (arr, rest) ← read_i32_list len.toNat rest
    return (.TagIntArray arr, rest, accounter)
  | _ + 1, 12, bytes, _, accounter => do
    let accounter ← accounter.account_bytes 24
    let (len, rest) ← read_i32 bytes
    let accounter ← accounter.account_bytes (u64_of_i32 (i32_wrapping_mul 8 len))
    let (arr, rest) ← read_i64_list len.toNat rest
    return (.TagLongArray arr, rest, accounter)
  | _ + 1, bit, _, _, _ => .error (.invalidBit bit)

/-- The element loop of the list reader: `length` iterations, each loading
one tag at `depth + 1` (the increment happens at the call site in the list
case above). -/
def load_list : (fuel tag_byte count : Nat) → List Nat → (depth : Nat) → NbtAccounter →
    Except NbtError (List Tag × List Nat × NbtAccounter)
  | _, _, 0, bytes, _, accounter => .ok ([], bytes, accounter)
  | fuel, tag_byte, count + 1, bytes, depth, accounter => do
    let (t, rest, accounter) ← load_tag fuel tag_byte bytes depth accounter
    let (ts, rest, accounter) ← load_list fuel tag_byte count rest depth accounter
    return (t :: ts, rest, accounter)

/-- The entry loop of the compound reader: read a type-id byte, stop on
`0`; otherwise charge 28, read the key string, load the value at
`depth + 1`, push, charge 36, and continue. -/
def load_compound : (fuel : Nat) → List Nat → (depth : Nat) → NbtAccounter →
    Except NbtError (List (List Nat × Tag) × List Nat × NbtAccounter)
  | 0, _, _, _ => .error .fuelExhausted
  | fuel + 1, bytes, depth, accounter => do
    let (tag_byte, rest) ← read_u8 bytes
    if tag_byte = 0 then
      return ([], rest, accounter)
    else do
      let accounter ← accounter.account_bytes 28
      let (key, rest, accounter) ← nbt_read_string rest accounter
      let (data, rest, accounter) ← load_tag fuel tag_byte rest (depth + 1) accounter
      let accounter ← accounter.account_bytes 36
      let (map, rest, accounter) ← load_compound fuel rest depth accounter
      return ((key, data) :: map, rest, accounter)

end

/-- Run `load_tag` with enough fuel for its input. -/
def load_tag_run (bit : Nat) (bytes : List Nat) (depth : Nat) (accounter : NbtAccounter) :
    Except NbtError (Tag × List Nat × NbtAccounter) :=
  load_tag (bytes.length + 1) bit bytes depth accounter

/-! ### C4: accounting ceiling, disabled accounting, and tally overflow -/

theorem account_bytes_limit_zero (acc : NbtAccounter) (n : Nat) (h : acc.limit = 0) :
    acc.account_bytes n = .ok acc := by
  unfold NbtAccounter.account_bytes
  rw [if_pos h]

/-- C4: `[1, 0, 0, 0x42, 0]` is the body of a compound holding one byte
entry under the empty key; its accumulated decode cost is
48 + 28 + 0 + 9 + 36 = 121.  A nonzero ceiling of 120 fails the decode
with the oversized-tag error; ceilings 121 and 0 (accounting disabled)
succeed, the zero ceiling leaving the tally untouched; and an accounter
whose running tally would overflow `u64` on the next charge is a hard
decode failure with the overflow error. -/
theorem claim_c4_accounting_ceiling :
    load_tag_run 10 [1, 0, 0, 0x42, 0] 0 ⟨120, 0⟩ = .error .tooBig ∧
    load_tag_run 10 [1, 0, 0, 0x42, 0] 0 ⟨121, 0⟩ =
      .ok (.CompoundTag [([], .TagByte 0x42)], [], ⟨121, 121⟩) ∧
    load_tag_run 10 [1, 0, 0, 0x42, 0] 0 ⟨0, 0⟩ =
      .ok (.CompoundTag [([], .TagByte 0x42)], [], ⟨0, 0⟩) ∧
    load_tag_run 10 [1, 0, 0, 0x42, 0] 0 ⟨2 ^ 64 - 1, 2 ^ 64 - 1⟩ =
      .error .accounterOverflow := by
  refine ⟨?_, ?_, ?_, ?_⟩
  · show load_tag 6 10 [1, 0, 0, 0x42, 0] 0 ⟨120, 0⟩ = .error .tooBig
    have ha48 : (⟨120, 0⟩ : NbtAccounter).account_bytes 48 = .ok ⟨120, 48⟩ := rfl
    have ha28 : (⟨120, 48⟩ : NbtAccounter).account_bytes 28 = .ok ⟨120, 76⟩ := rfl
    have hs : nbt_read_string [0, 0, 0x42, 0] ⟨120, 76⟩ = .ok ([], [0x42, 0], ⟨120, 76⟩) := rfl
    have ha9 : (⟨120, 76⟩ : NbtAccounter).account_bytes 9 = .ok ⟨120, 85⟩ := rfl
    have ha36 : (⟨120, 85⟩ : NbtAccounter).account_bytes 36 = .error .tooBig := rfl
    have h2 : load_tag 4 1 [0x42, 0] 1 ⟨120, 76⟩ = .ok (.TagByte 0x42, [0], ⟨120, 85⟩) := by
      rw [load_tag.eq_def]
      simp [ha9, except_bind_ok, except_pure, read_u8]
    have h3 : load_compound 5 [1, 0, 0, 0x42, 0] 0 ⟨120, 48⟩ = .error .tooBig := by
      rw [load_compound.eq_def]
      simp [ha28, hs, ha36, h2, except_bind_ok, except_bind_error, except_pure, read_u8]
    rw [load_tag.eq_def]
    simp [ha48, h3, except_bind_ok, except_bind_error, except_pure]
  · show load_tag 6 10 [1, 0, 0, 0x42, 0] 0 ⟨121, 0⟩ = _
    have ha48 : (⟨121, 0⟩ : NbtAccounter).account_bytes 48 = .ok ⟨121, 48⟩ := rfl
    have ha28 : (⟨121, 48⟩ : NbtAccounter).account_bytes 28 = .ok ⟨121, 76⟩ := rfl
    have hs : nbt_read_string [0, 0, 0x42, 0] ⟨121, 76⟩ = .ok ([], [0x42, 0], ⟨121, 76⟩) := rfl
    have ha9 : (⟨121, 76⟩ : NbtAccounter).account_bytes 9 = .ok ⟨121, 85⟩ := rfl
    have ha36 : (⟨121, 85⟩ : NbtAccounter).account_bytes 36 = .ok ⟨121, 121⟩ := rfl
    have h2 : load_tag 4 1 [0x42, 0] 1 ⟨121, 76⟩ = .ok (.TagByte 0x42, [0], ⟨121, 85⟩) := by
      rw [load_tag.eq_def]
      simp [ha9, except_bind_ok, except_pure, read_u8]
    have h1 : load_compound 4 [0] 0 ⟨121, 121⟩ = .ok ([], [], ⟨121, 121⟩) := by
      rw [load_compound.eq_def]
      simp [except_bind_ok, except_pure, read_u8]
    have h3 : load_compound 5 [1, 0, 0, 0x42, 0] 0 ⟨121, 48⟩ =
        .ok ([([], .TagByte 0x42)], [], ⟨121, 121⟩) := by
      rw [load_compound.eq_def]
      simp [ha28, hs, ha36, h2, h1, except_bind_ok, except_bind_error, except_pure, read_u8]
    rw [load_tag.eq_def]
    simp [ha48, h3, except_bind_ok, except_pure]
  · show load_tag 6 10 [1, 0, 0, 0x42, 0] 0 ⟨0, 0⟩ = _
    have ha : ∀ n, (⟨0, 0⟩ : NbtAccounter).account_bytes n = .ok ⟨0, 0⟩ := fun n =>
      account_bytes_limit_zero ⟨0, 0⟩ n rfl
    have hs : nbt_read_string [0, 0, 0x42, 0] ⟨0, 0⟩ = .ok ([], [0x42, 0], ⟨0, 0⟩) := rfl
    have h2 : load_tag 4 1 [0x42, 0] 1 ⟨0, 0⟩ = .ok (.TagByte 0x42, [0], ⟨0, 0⟩) := by
      rw [load_tag.eq_def]
      simp [ha, except_bind_ok, except_pure, read_u8]
    have h1 : load_compound 4 [0] 0 ⟨0, 0⟩ = .ok ([], [], ⟨0, 0⟩) := by
      rw [load_compound.eq_def]
      simp [except_bind_ok, except_pure, read_u8]
    have h3 : load_compound 5 [1, 0, 0, 0x42, 0] 0 ⟨0, 0⟩ =
        .ok ([([], .TagByte 0x42)], [], ⟨0, 0⟩) := by
      rw [load_compound.eq_def]
      simp [ha, hs, h2, h1, except_bind_ok, except_bind_error, except_pure, read_u8]
    rw [load_tag.eq_def]
    simp [ha, h3, except_bind_ok, except_pure]
  · show load_tag 6 10 [1, 0, 0, 0x42, 0] 0 ⟨2 ^ 64 - 1, 2 ^ 64 - 1⟩ = _
    have ha : (⟨18446744073709551615, 18446744073709551615⟩ : NbtAccounter).account_bytes 48 =
        .error .accounterOverflow := by
      unfold NbtAccounter.account_bytes
      norm_num
    rw [load_tag.eq_def]
    simp [ha, except_bind_error]

/-! ### C5: recursion-depth limiting -/

theorem except_map_ok {e a b : Type} (f : a -> b) (x : a) :
    (f <$> (Except.ok x : Except e a)) = .ok (f x) := rfl

theorem except_map_error {e a b : Type} (f : a -> b) (err : e) :
    (f <$> (Except.error err : Except e a)) = .error err := rfl

/-- The wire bytes of a compound nested `k` levels deep: each level is one
entry whose key is the empty string and whose value is the next compound,
closed by the end-marker byte. -/
def nest_compound_bytes : Nat → List Nat
  | 0 => [0]
  | k + 1 => 10 :: 0 :: 0 :: (nest_compound_bytes k ++ [0])

/-- The tag that `nest_compound_bytes k` decodes to. -/
def nest_tag : Nat → Tag
  | 0 => .CompoundTag []
  | k + 1 => .CompoundTag [([], nest_tag k)]

theorem nest_compound_bytes_length (k : Nat) :
    (nest_compound_bytes k).length = 4 * k + 1 := by
  induction k with
  | zero => rfl
  | succ k ih => simp [nest_compound_bytes, ih]; omega

theorem nbt_read_string_empty_name (rest : List Nat) (acc : NbtAccounter)
    (h : acc.limit = 0) :
    nbt_read_string (0 :: 0 :: rest) acc = .ok ([], rest, acc) := by
  have h1 : read_u16 (0 :: 0 :: rest) = .ok (0, rest) := by
    unfold read_u16 read_be read_exact
    have h2 : 2 ≤ (0 :: 0 :: rest).length := by simp
    rw [if_pos h2]
    simp [be_val]
  have h2 : read_exact 0 rest = .ok ([], rest) := by
    unfold read_exact
    simp
  have h3 : from_java_cesu8 [] = .ok [] := rfl
  simp [nbt_read_string, h1, h2, h3, utf8_len, account_bytes_limit_zero _ _ h]

/-- Decoding a `k`-level nested compound at depth `d` succeeds whenever
the innermost level stays at depth at most 512, the accounter is disabled,
and the fuel covers the nesting; the trailing bytes are left unread. -/
theorem load_nested_compound_ok :
    ∀ (k d f : Nat) (acc : NbtAccounter) (ex : List Nat), acc.limit = 0 → d + k ≤ 512 →
      2 * k + 2 ≤ f →
      load_tag f 10 (nest_compound_bytes k ++ ex) d acc = .ok (nest_tag k, ex, acc) := by
  intro k
  induction k with
  | zero =>
    intro d f acc ex hlim hd hf
    obtain ⟨g, rfl⟩ : ∃ g, f = g + 1 := ⟨f - 1, by omega⟩
    obtain ⟨g2, rfl⟩ : ∃ g2, g = g2 + 1 := ⟨g - 1, by omega⟩
    have hdep : ¬ (d > 512) := by omega
    have hcomp : load_compound (g2 + 1) (0 :: ex) d acc = .ok ([], ex, acc) := by
      rw [load_compound.eq_def]
      simp [read_u8, except_bind_ok, except_pure]
    rw [load_tag.eq_def]
    simp [nest_compound_bytes, account_bytes_limit_zero _ _ hlim, hdep, hcomp,
      except_bind_ok, except_map_ok, nest_tag]
  | succ k ih =>
    intro d f acc ex hlim hd hf
    obtain ⟨g, rfl⟩ : ∃ g, f = g + 1 := ⟨f - 1, by omega⟩
    obtain ⟨g2, rfl⟩ : ∃ g2, g = g2 + 1 := ⟨g - 1, by omega⟩
    obtain ⟨g3, rfl⟩ : ∃ g3, g2 = g3 + 1 := ⟨g2 - 1, by omega⟩
    have hdep : ¬ (d > 512) := by omega
    have hbytes : nest_compound_bytes (k + 1) ++ ex =
        10 :: 0 :: 0 :: (nest_compound_bytes k ++ (0 :: ex)) := by
      simp [nest_compound_bytes]
    have hstr : nbt_read_string (0 :: 0 :: (nest_compound_bytes k ++ (0 :: ex))) acc =
        .ok ([], nest_compound_bytes k ++ (0 :: ex), acc) :=
      nbt_read_string_empty_name _ acc hlim
    have hchild : load_tag (g3 + 1) 10 (nest_compound_bytes k ++ (0 :: ex)) (d + 1) acc =
        .ok (nest_tag k, 0 :: ex, acc) :=
      ih (d + 1) (g3 + 1) acc (0 :: ex) hlim (by omega) (by omega)
    have hcont : load_compound (g3 + 1) (0 :: ex) d acc = .ok ([], ex, acc) := by
      rw [load_compound.eq_def]
      simp [read_u8, except_bind_ok, except_pure]
    have hcomp :
        load_compound (g3 + 1 + 1) (10 :: 0 :: 0 :: (nest_compound_bytes k ++ (0 :: ex)))
          d acc = .ok ([([], nest_tag k)], ex, acc) := by
      rw [load_compound.eq_def]
      simp [read_u8, account_bytes_limit_zero _ _ hlim, hstr, hchild, hcont,
        except_bind_ok, except_bind_error, except_pure]
    rw [load_tag.eq_def, hbytes]
    simp [account_bytes_limit_zero _ _ hlim, hdep, hcomp, except_bind_ok, except_map_ok,
      nest_tag]

/-- With the depth parameter already past 512, the list and compound cases
fail with the depth error for every byte input and before consuming any
byte of the subtree. -/
theorem load_tag_depth_fail (bytes : List Nat) (d f : Nat) (acc : NbtAccounter)
    (hlim : acc.limit = 0) (hd : 512 < d) (hf : 1 ≤ f) :
    load_tag f 10 bytes d acc = .error .depthExceeded ∧
    load_tag f 9 bytes d acc = .error .depthExceeded := by
  obtain ⟨g, rfl⟩ : ∃ g, f = g + 1 := ⟨f - 1, by omega⟩
  have hdep : d > 512 := hd
  constructor
  · rw [load_tag.eq_def]
    simp [account_bytes_limit_zero _ _ hlim, hdep, except_bind_ok]
  · rw [load_tag.eq_def]
    simp [account_bytes_limit_zero _ _ hlim, hdep, except_bind_ok]

/-- A compound nested deeply enough that some level exceeds depth 512
fails with the depth error. -/
theorem load_nested_compound_depth_fail :
    ∀ (k d f : Nat) (acc : NbtAccounter) (ex : List Nat), acc.limit = 0 → 512 < d + k →
      2 * k + 2 ≤ f →
      load_tag f 10 (nest_compound_bytes k ++ ex) d acc = .error .depthExceeded := by
  intro k
  induction k with
  | zero =>
    intro d f acc ex hlim hd hf
    exact (load_tag_depth_fail _ d f acc hlim (by omega) (by omega)).1
  | succ k ih =>
    intro d f acc ex hlim hd hf
    by_cases hdd : 512 < d
    · exact (load_tag_depth_fail _ d f acc hlim hdd (by omega)).1
    · push_neg at hdd
      obtain ⟨g, rfl⟩ : ∃ g, f = g + 1 := ⟨f - 1, by omega⟩
      obtain ⟨g2, rfl⟩ : ∃ g2, g = g2 + 1 := ⟨g - 1, by omega⟩
      have hdep : ¬ (d > 512) := by omega
      have hbytes : nest_compound_bytes (k + 1) ++ ex =
          10 :: 0 :: 0 :: (nest_compound_bytes k ++ (0 :: ex)) := by
        simp [nest_compound_bytes]
      have hstr : nbt_read_string (0 :: 0 :: (nest_compound_bytes k ++ (0 :: ex))) acc =
          .ok ([], nest_compound_bytes k ++ (0 :: ex), acc) :=
        nbt_read_string_empty_name _ acc hlim
      have hchild : load_tag g2 10 (nest_compound_bytes k ++ (0 :: ex)) (d + 1) acc =
          .error .depthExceeded :=
        ih (d + 1) g2 acc (0 :: ex) hlim (by omega) (by omega)
      have hcomp :
          load_compound (g2 + 1) (10 :: 0 :: 0 :: (nest_compound_bytes k ++ (0 :: ex)))
            d acc = .error .depthExceeded := by
        rw [load_compound.eq_def]
        simp [read_u8, account_bytes_limit_zero _ _ hlim, hstr, hchild,
          except_bind_ok, except_bind_error]
      rw [load_tag.eq_def, hbytes]
      simp [account_bytes_limit_zero _ _ hlim, hdep, hcomp, except_bind_ok,
        except_bind_error, except_map_error]

/-- C5: list and compound bodies recurse with `depth + 1`, and exceeding
the 512 depth limit is a hard failure raised before any further bytes of
the subtree are consumed (the failure holds for every byte input): a
compound nested to depth 513 fails with the depth-exceeded error while a
nesting of exactly depth 512 decodes successfully when the accounting
budget allows it (here: accounting disabled). -/
theorem claim_c5_depth_limit :
    (∀ ex : List Nat,
        load_tag_run 10 (nest_compound_bytes 512 ++ ex) 0 ⟨0, 0⟩ =
          .ok (nest_tag 512, ex, ⟨0, 0⟩)) ∧
    load_tag_run 10 (nest_compound_bytes 513) 0 ⟨0, 0⟩ = .error .depthExceeded ∧
    (∀ bytes : List Nat, load_tag_run 10 bytes 513 ⟨0, 0⟩ = .error .depthExceeded) ∧
    (∀ bytes : List Nat, load_tag_run 9 bytes 513 ⟨0, 0⟩ = .error .depthExceeded) := by
  refine ⟨?_, ?_, ?_, ?_⟩
  · intro ex
    unfold load_tag_run
    apply load_nested_compound_ok 512 0 _ _ ex rfl (by omega)
    rw [List.length_append, nest_compound_bytes_length]
    omega
  · unfold load_tag_run
    have h := load_nested_compound_depth_fail 513 0 ((nest_compound_bytes 513).length + 1)
      ⟨0, 0⟩ [] rfl (by omega) (by rw [nest_compound_bytes_length]; omega)
    simpa using h
  · intro bytes
    exact (load_tag_depth_fail bytes 513 _ ⟨0, 0⟩ rfl (by omega) (by omega)).1
  · intro bytes
    exact (load_tag_depth_fail bytes 513 _ ⟨0, 0⟩ rfl (by omega) (by omega)).2

end Drax

namespace DraxCore

/-! ## Legacy NBT loader (`drax_core/src/nbt.rs`)

Only the decode side is embedded here (`NbtAccounter::account_bits` and
`load_tag`); the `HashMap` of `CompoundTag` is modelled as an association
list with replace-on-insert (`insert` returning whether a previous value
existed), which preserves the entry set and the duplicate-detection used
for accounting. -/

structure NbtAccounter where
  limit : Nat
  current : Nat
deriving DecidableEq, Repr

/-- `NbtAccounter::account_bits`: a `u64` checked add (overflow is a hard
error), then the ceiling test.  Unlike the current crate's
`account_bytes`, there is no zero-disables-accounting shortcut. -/
def NbtAccounter.account_bits (acc : NbtAccounter) (bits : Nat) : Except Error NbtAccounter :=
  if acc.current + bits ≥ 2 ^ 64 then .error .accounterOverflow
  else if acc.current + bits > acc.limit then .error .nbtTooBig
  else .ok ⟨acc.limit, acc.current + bits⟩

inductive Tag where
  | EndTag
  | ByteTag (v : Nat)
  | ShortTag (v : Int)
  | IntTag (v : Int)
  | LongTag (v : Int)
  | FloatTag (bits : Nat)
  | DoubleTag (bits : Nat)
  | ByteArrayTag (bs : List Nat)
  | StringTag (s : List Nat)
  | ListTag (t : Nat) (tags : List Tag)
  | CompoundTag (mappings : List (List Nat × Tag))
  | IntArrayTag (vs : List Int)
  | LongArrayTag (vs : List Int)

/-- `HashMap::insert` on the association-list model: replaces the value
under an existing key and reports whether one was replaced (the
`is_some()` that triggers the duplicate-entry charge). -/
def map_insert : List (List Nat × Tag) → List Nat → Tag → List (List Nat × Tag) × Bool
  | [], k, v => ([(k, v)], false)
  | (k0, v0) :: rest, k, v =>
    if k0 = k then ((k0, v) :: rest, true)
    else
      let (m, dup) := map_insert rest k v
      ((k0, v0) :: m, dup)

/-- Byte-level reads through `byteorder` on the in-memory source. -/
def read_u8 : List Nat → Except Error (Nat × List Nat)
  | [] => .error .eof
  | b :: rest => .ok (b, rest)

def read_be (width : Nat) (bytes : List Nat) : Except Error (Nat × List Nat) :=
  if width ≤ bytes.length then .ok (Drax.be_val (bytes.take width), bytes.drop width)
  else .error .eof

def read_u16_be (bytes : List Nat) : Except Error (Nat × List Nat) := read_be 2 bytes

def read_i16_be (bytes : List Nat) : Except Error (Int × List Nat) :=
  match read_be 2 bytes with
  | .ok (v, rest) => .ok (Drax.signed_of_unsigned 16 v, rest)
  | .error e => .error e

def read_i32_be (bytes : List Nat) : Except Error (Int × List Nat) :=
  match read_be 4 bytes with
  | .ok (v, rest) => .ok (Drax.i32_of_u32 v, rest)
  | .error e => .error e

def read_i64_be (bytes : List Nat) : Except Error (Int × List Nat) :=
  match read_be 8 bytes with
  | .ok (v, rest) => .ok (Drax.i64_of_u64 v, rest)
  | .error e => .error e

/-- `read_exact` into a prepared buffer; the manual read loop of
`read_string` errors with the under-read message when the source cannot
fill it. -/
def read_fill (n : Nat) (bytes : List Nat) : Except Error (List Nat × List Nat) :=
  if n ≤ bytes.length then .ok (bytes.take n, bytes.drop n) else .error .underRead

/-- `read_string` of `drax_core/src/nbt.rs`: `u16` big-endian length, an
early return of the empty string on length zero, the fill loop, then
`cesu8::from_java_cesu8` (sharing the spec-modelled decoder). -/
def read_string (bytes : List Nat) : Except Error (List Nat × List Nat) :=
  match read_u16_be bytes with
  | .error e => .error e
  | .ok (str_len, rest) =>
    if str_len = 0 then .ok ([], rest)
    else
      match read_fill str_len rest with
      | .error e => .error e
      | .ok (raw, rest) =>
        match Drax.from_java_cesu8 raw with
        | .error _ => .error .cesu8Error
        | .ok s => .ok (s, rest)

/-- The `for _ in 0..len` read loops of the int/long array cases. -/
def read_i32_seq : Nat → List Nat → Except Error (List Int × List Nat)
  | 0, bytes => .ok ([], bytes)
  | n + 1, bytes =>
    match read_i32_be bytes with
    | .error e => .error e
    | .ok (i, rest) =>
      match read_i32_seq n rest with
      | .error e => .error e
      | .ok (is, rest) => .ok (i :: is, rest)

def read_i64_seq : Nat → List Nat → Except Error (List Int × List Nat)
  | 0, bytes => .ok ([], bytes)
  | n + 1, bytes =>
    match read_i64_be bytes with
    | .error e => .error e
    | .ok (i, rest) =>
      match read_i64_seq n rest with
      | .error e => .error e
      | .ok (is, rest) => .ok (i :: is, rest)

mutual

/-- `load_tag` of `drax_core/src/nbt.rs`: each case first charges its
fixed overhead in "bits" to the accounter, then (for lists and compounds,
after the depth check) reads the wire payload.  The overhead constants
are 64, 72, 80, 96, 128, 96, 128, 192, 288, 296, 384, 192, 192 for tag
bits 0 through 12.  The embedding is fuelled like the current crate's
loader. -/
def load_tag : (fuel tag_bit : Nat) → List Nat → (depth : Nat) → NbtAccounter →
    Except Error (Tag × List Nat × NbtAccounter)
  | 0, _, _, _, _ => .error .eof
  | _ + 1, 0, bytes, _, accounter => do
    let accounter ← accounter.account_bits 64
    return (.EndTag, bytes, accounter)
  | _ + 1, 1, bytes, _, accounter => do
    let accounter ← accounter.account_bits 72
    let (v, rest) ← read_u8 bytes
    return (.ByteTag v, rest, accounter)
  | _ + 1, 2, bytes, _, accounter => do
    let accounter ← accounter.account_bits 80
    let (v, rest) ← read_i16_be bytes
    return (.ShortTag v, rest, accounter)
  | _ + 1, 3, bytes, _, accounter => do
    let accounter ← accounter.account_bits 96
    let (v, rest) ← read_i32_be bytes
    return (.IntTag v, rest, accounter)
  | _ + 1, 4, bytes, _, accounter => do
    let accounter ← accounter.account_bits 128
    let (v, rest) ← read_i64_be bytes
    return (.LongTag v, rest, accounter)
  | _ + 1, 5, bytes, _, accounter => do
    let accounter ← accounter.account_bits 96
    let (bits, rest) ← read_be 4 bytes
    return (.FloatTag bits, rest, accounter)
  | _ + 1, 6, bytes, _, accounter => do
    let accounter ← accounter.account_bits 128
    let (bits, rest) ← read_be 8 bytes
    return (.DoubleTag bits, rest, accounter)
  | _ + 1, 7, bytes, _, accounter => do
    let accounter ← accounter.account_bits 192
    let (size, rest) ← read_i32_be bytes
    let accounter ← accounter.account_bits (8 * Drax.u64_of_i32 size % 2 ^ 64)
    let (bs, rest) ← read_fill (Drax.u64_of_i32 size) rest
    return (.ByteArrayTag bs, rest, accounter)
  | _ + 1, 8, bytes, _, accounter => do
    let accounter ← accounter.account_bits 288
    let (s, rest) ← read_string bytes
    let accounter ← accounter.account_bits (16 * Drax.utf8_len s % 2 ^ 64)
    return (.StringTag s, rest, accounter)
  | fuel + 1, 9, bytes, depth, accounter => do
    let accounter ← accounter.account_bits 296
    if depth > 512 then
      .error .depthExceeded
    else do
      let (list_tag_type, rest) ← read_u8 bytes
      let (list_len, rest) ← read_i32_be rest
      if list_tag_type = 0 ∧ 0 < list_len then
        .error .missingListType
      else do
        let accounter ← accounter.account_bits (32 * Drax.u64_of_i32 list_len % 2 ^ 64)
        let (tags, rest, accounter) ←
          load_list fuel list_tag_type list_len.toNat rest (depth + 1) accounter
        return (.ListTag list_tag_type tags, rest, accounter)
  | fuel + 1, 10, bytes, depth, accounter => do
    let accounter ← accounter.account_bits 384
    if depth > 512 then
      .error .depthExceeded
    else do
      let (mappings, rest, accounter) ← load_compound fuel bytes depth [] accounter
      return (.CompoundTag mappings, rest, accounter)
  | _ + 1, 11, bytes, _, accounter => do
    let accounter ← accounter.account_bits 192
    let (len, rest) ← read_i32_be bytes
    let accounter ← accounter.account_bits (32 * Drax.u64_of_i32 len % 2 ^ 64)
    let (vs, rest) ← read_i32_seq len.toNat rest
    -- the source pre-fills `vec![0i32; len as usize]` and then pushes
    return (.IntArrayTag (List.replicate len.toNat 0 ++ vs), rest, accounter)
  | _ + 1, 12, bytes, _, accounter => do
    let accounter ← accounter.account_bits 192
    let (len, rest) ← read_i32_be bytes
    let accounter ← accounter.account_bits (64 * Drax.u64_of_i32 len % 2 ^ 64)
    let (vs, rest) ← read_i64_seq len.toNat rest
    return (.LongArrayTag (List.replicate len.toNat 0 ++ vs), rest, accounter)
  | _ + 1, tag_bit, _, _, _ => .error (.unknownTagBit tag_bit)

/-- The element loop of the list case. -/
def load_list : (fuel list_tag_type count : Nat) → List Nat → (depth : Nat) → NbtAccounter →
    Except Error (List Tag × List Nat × NbtAccounter)
  | _, _, 0, bytes, _, accounter => .ok ([], bytes, accounter)
  | fuel, list_tag_type, count + 1, bytes, depth, accounter => do
    let (t, rest, accounter) ← load_tag fuel list_tag_type bytes depth accounter
    let (ts, rest, accounter) ← load_list fuel list_tag_type count rest depth accounter
    return (t :: ts, rest, accounter)

/-- The entry loop of the compound case, carrying the map built so far:
read the next type byte, stop on zero; otherwise read the name, charge
`224 + 16 * name_len`, load the value at `depth + 1`, insert into the map
(charging a further 288 when the key replaced an entry read earlier), and
continue. -/
def load_compound : (fuel : Nat) → List Nat → (depth : Nat) →
    List (List Nat × Tag) → NbtAccounter →
    Except Error (List (List Nat × Tag) × List Nat × NbtAccounter)
  | 0, _, _, _, _ => .error .eof
  | fuel + 1, bytes, depth, mappings, accounter => do
    let (next_byte, rest) ← read_u8 bytes
    if next_byte = 0 then
      return (mappings, rest, accounter)
    else do
      let (tag_name, rest) ← read_string rest
      let accounter ← accounter.account_bits ((224 + 16 * Drax.utf8_len tag_name) % 2 ^ 64)
      let (tag, rest, accounter) ← load_tag fuel next_byte rest (depth + 1) accounter
      let (mappings, replaced) := map_insert mappings tag_name tag
      if replaced then do
        let accounter ← accounter.account_bits 288
        load_compound fuel rest depth mappings accounter
      else
        load_compound fuel rest depth mappings accounter

end

/-- Run `load_tag` with enough fuel for its input. -/
def load_tag_run (tag_bit : Nat) (bytes : List Nat) (depth : Nat) (accounter : NbtAccounter) :
    Except Error (Tag × List Nat × NbtAccounter) :=
  load_tag (bytes.length + 1) tag_bit bytes depth accounter

/-- C3: in the legacy loader, each type-id case charges its fixed
overhead to the accounter before reading any wire payload — with a budget
one below the overhead the load fails with the oversized error for every
byte input and every depth (so no byte is consumed), and with a budget of
exactly the overhead the minimal wire form succeeds — and those constants
are 64 for the end tag, 384 for a compound tag and 296 for a list tag. -/
theorem claim_c3_load_tag_overheads :
    (∀ (bytes : List Nat) (depth : Nat),
        load_tag_run 0 bytes depth ⟨63, 0⟩ = .error .nbtTooBig) ∧
    load_tag_run 0 [] 0 ⟨64, 0⟩ = .ok (.EndTag, [], ⟨64, 64⟩) ∧
    (∀ (bytes : List Nat) (depth : Nat),
        load_tag_run 10 bytes depth ⟨383, 0⟩ = .error .nbtTooBig) ∧
    load_tag_run 10 [0] 0 ⟨384, 0⟩ = .ok (.CompoundTag [], [], ⟨384, 384⟩) ∧
    (∀ (bytes : List Nat) (depth : Nat),
        load_tag_run 9 bytes depth ⟨295, 0⟩ = .error .nbtTooBig) ∧
    load_tag_run 9 [0, 0, 0, 0, 0] 0 ⟨296, 0⟩ = .ok (.ListTag 0 [], [], ⟨296, 296⟩) := by
  refine ⟨?_, ?_, ?_, ?_, ?_, ?_⟩
  · intro bytes depth
    unfold load_tag_run
    have ha : (⟨63, 0⟩ : NbtAccounter).account_bits 64 = .error .nbtTooBig := rfl
    rw [load_tag.eq_def]
    simp [ha, Drax.except_bind_error]
  · show load_tag 1 0 [] 0 ⟨64, 0⟩ = _
    rw [load_tag.eq_def]
    rfl
  · intro bytes depth
    unfold load_tag_run
    have ha : (⟨383, 0⟩ : NbtAccounter).account_bits 384 = .error .nbtTooBig := rfl
    rw [load_tag.eq_def]
    simp [ha, Drax.except_bind_error]
  · show load_tag 2 10 [0] 0 ⟨384, 0⟩ = _
    have ha : (⟨384, 0⟩ : NbtAccounter).account_bits 384 = .ok ⟨384, 384⟩ := rfl
    have h1 : load_compound 1 [0] 0 [] ⟨384, 384⟩ = .ok ([], [], ⟨384, 384⟩) := by
      rw [load_compound.eq_def]
      rfl
    rw [load_tag.eq_def]
    simp [ha, h1, Drax.except_bind_ok, Drax.except_map_ok]
  · intro bytes depth
    unfold load_tag_run
    have ha : (⟨295, 0⟩ : NbtAccounter).account_bits 296 = .error .nbtTooBig := rfl
    rw [load_tag.eq_def]
    simp [ha, Drax.except_bind_error]
  · show load_tag 6 9 [0, 0, 0, 0, 0] 0 ⟨296, 0⟩ = _
    have ha : (⟨296, 0⟩ : NbtAccounter).account_bits 296 = .ok ⟨296, 296⟩ := rfl
    have ha0 : (⟨296, 296⟩ : NbtAccounter).account_bits
        (32 * Drax.u64_of_i32 0 % 18446744073709551616) = .ok ⟨296, 296⟩ := rfl
    have h1 : load_list 5 0 0 [] 1 ⟨296, 296⟩ = .ok ([], [], ⟨296, 296⟩) := by
      rw [load_list.eq_def]
    have h2 : read_i32_be [0, 0, 0, 0] = .ok (0, []) := rfl
    rw [load_tag.eq_def]
    simp [ha, ha0, h1, h2, read_u8, Drax.except_bind_ok, Drax.except_bind_error,
      Drax.except_map_ok]

end DraxCore
